import Mathlib

/-!
Verification development for the mdb-skill-builder document normalization
engine.  The TypeScript passes (content.ts, postprocess, url-validator)
are embedded shallowly: a document is a list of lines (the code splits on
"\n" and joins with "\n"), and every pass is a line-oriented state
machine translated branch-by-branch from the source.
-/

namespace SkillBuilder

/-!
JavaScript string primitives, modelled over character lists (`String.data`)
so that they are executable by the kernel.  `\s` / `.trim()` whitespace is
modelled by `Char.isWhitespace` (space, tab, CR, LF), adequate for this
ASCII markup dialect.
-/

/-- JS `\s` character class (restricted to ASCII whitespace). -/
def isWsChar (c : Char) : Bool := c.isWhitespace

/-- `.trim()` on a character list. -/
def trimChars (l : List Char) : List Char :=
  ((l.dropWhile isWsChar).reverse.dropWhile isWsChar).reverse

/-- JS `s.trim()`. -/
def jsTrim (s : String) : String := String.mk (trimChars s.toList)

/-- JS `s.trimEnd()`. -/
def jsTrimEnd (s : String) : String :=
  String.mk (s.toList.reverse.dropWhile isWsChar).reverse

/-- JS `s.startsWith(pre)`. -/
def jsStartsWith (s pre : String) : Bool := pre.toList.isPrefixOf s.toList

/-- JS `s.endsWith(suf)`. -/
def jsEndsWith (s suf : String) : Bool := suf.toList.isSuffixOf s.toList

/-- JS `s.slice(n)` (drop the first `n` characters). -/
def jsDrop (s : String) (n : Nat) : String := String.mk (s.toList.drop n)

/-- Drop the last `n` characters. -/
def jsDropRight (s : String) (n : Nat) : String :=
  String.mk (s.toList.take (s.toList.length - n))

/-- JS `s.split("\n")` on a character list. -/
def splitLinesChars : List Char → List (List Char)
  | [] => [[]]
  | c :: rest =>
    if c = '\n' then [] :: splitLinesChars rest
    else
      match splitLinesChars rest with
      | [] => [[c]]
      | l :: ls => (c :: l) :: ls

/-- JS `content.split("\n")`. -/
def splitLines (s : String) : List String := (splitLinesChars s.toList).map String.mk

/-- Number of leading space characters of a line (TS: `line.match(/^( *)/)`). -/
def leadingSpaces (line : String) : Nat :=
  (line.toList.takeWhile (fun c => c = ' ')).length

/-- TS `line.slice(Math.min(n, getLeadingSpaces(line)))`. -/
def dedentClamped (n : Nat) (line : String) : String :=
  jsDrop line (min n (leadingSpaces line))

/-- Parse a markdown heading per `parseMarkdownHeading` in content.ts:
regex `^(#{1,6})\s+(.+)$`, returning the level and `match[2].trim()`. -/
def parseMarkdownHeading (line : String) : Option (Nat × String) :=
  let cs := line.toList
  let hs := cs.takeWhile (fun c => c = '#')
  let rest := cs.dropWhile (fun c => c = '#')
  if 1 ≤ hs.length ∧ hs.length ≤ 6 then
    let ws := rest.takeWhile (fun c => c.isWhitespace)
    let after := rest.dropWhile (fun c => c.isWhitespace)
    if ws.length = 0 then none
    else if after ≠ [] then some (hs.length, String.mk (trimChars after))
    else if 2 ≤ ws.length then some (hs.length, "")
    else none
  else none

/-- Match the regex `^(#{1,6})\s` (used by the heading-level trackers):
one to six leading `#` followed by a whitespace character. -/
def mdHeadingLevel (line : String) : Option Nat :=
  let cs := line.toList
  let hs := cs.takeWhile (fun c => c = '#')
  let rest := cs.dropWhile (fun c => c = '#')
  match rest with
  | c :: _ => if 1 ≤ hs.length ∧ hs.length ≤ 6 ∧ c.isWhitespace then some hs.length else none
  | [] => none

/-- Match `^<Tag\s[^>]*>$` (an opening tag that carries attributes). -/
def mdxOpenWithAttrs (tag : String) (t : String) : Bool :=
  jsStartsWith t ("<" ++ tag) && jsEndsWith t ">" &&
    (let mid := jsDropRight (jsDrop t (tag.length + 1)) 1
     match mid.toList with
     | c :: rest => c.isWhitespace && !(List.contains rest '>')
     | [] => false)

/-- Match `^<Tag[^>]*>$` (attributes not required to start with whitespace). -/
def mdxOpenAny (tag : String) (t : String) : Bool :=
  jsStartsWith t ("<" ++ tag) && jsEndsWith t ">" &&
    (let mid := jsDropRight (jsDrop t (tag.length + 1)) 1
     !(List.contains mid.toList '>'))

/-- `trimmedLine === "<Heading>" || /^<Heading\s[^>]*>$/.test(trimmedLine)`. -/
def isHeadingOpen (t : String) : Bool :=
  t = "<Heading>" || mdxOpenWithAttrs "Heading" t

/-- `prevLine === "<Section>" || /^<Section\s[^>]*>$/.test(prevLine)` (content.ts). -/
def isSectionOpenWs (t : String) : Bool :=
  t = "<Section>" || mdxOpenWithAttrs "Section" t

/-- `/^<Section[^>]*>$/.test(trimmed) || trimmed === "<Section>"` (postprocess). -/
def isSectionOpenAny (t : String) : Bool :=
  mdxOpenAny "Section" t || t = "<Section>"

/-- `/^<Procedure[^>]*>$/.test(trimmed)` (postprocess). -/
def isProcedureOpen (t : String) : Bool :=
  mdxOpenAny "Procedure" t

/-! ## removeAllFrontmatter (postprocess step 1) -/

/-- The loop body of `removeAllFrontmatter`, with the two state booleans
(`inCodeBlock`, `inFrontmatter`) made explicit. -/
def rafGo (inCode inFM : Bool) : List String → List String
  | [] => []
  | line :: rest =>
    let t := jsTrim line
    if jsStartsWith t "```" then
      line :: rafGo (if inFM then inCode else !inCode) inFM rest
    else if inCode then
      line :: rafGo inCode inFM rest
    else if t = "---" then
      rafGo inCode (!inFM) rest
    else if inFM then
      rafGo inCode inFM rest
    else
      line :: rafGo inCode inFM rest

/-- `removeAllFrontmatter` from the postprocess module. -/
def removeAllFrontmatter (content : String) : String :=
  String.intercalate "\n" (rafGo false false (splitLines content))

/-- The lines that `removeAllFrontmatter` processes while its own
`inCodeBlock` flag is true (its fence-interior lines), tracked with the
same state transitions as `rafGo`. -/
def rafFenceInterior (inCode inFM : Bool) : List String → List String
  | [] => []
  | line :: rest =>
    let t := jsTrim line
    if jsStartsWith t "```" then
      rafFenceInterior (if inFM then inCode else !inCode) inFM rest
    else if inCode then
      line :: rafFenceInterior inCode inFM rest
    else if t = "---" then
      rafFenceInterior inCode (!inFM) rest
    else
      rafFenceInterior inCode inFM rest

/-! ## excludeSectionsByHeading (content.ts) -/

/-- Interior collection of `extractMdxHeadingText`: walk forward until a
line trims to `</Heading>`, gathering nonempty trimmed lines; return the
joined text and the lines after the closing tag. -/
def collectMdx (acc : List String) : List String → Option (String × List String)
  | [] => none
  | l :: rest =>
    let t := jsTrim l
    if t = "</Heading>" then some (jsTrim (String.intercalate " " acc), rest)
    else if t ≠ "" then collectMdx (acc ++ [t]) rest
    else collectMdx acc rest

/-- `extractMdxHeadingText` from content.ts, on the remaining lines. -/
def extractMdx : List String → Option (String × List String)
  | [] => none
  | l :: rest => if isHeadingOpen (jsTrim l) then collectMdx [] rest else none

/-- Does the skip loop of the markdown-heading branch stop at this line?
(`nextHeading && nextHeading.level <= excludeLevel`). -/
def stopsAtLE (lvl : Nat) (l : String) : Bool :=
  match parseMarkdownHeading (jsTrim l) with
  | some (n, _) => n ≤ lvl
  | none => false

/-- Backward scan of `excludeSectionsByHeading` over the already-emitted
output, given that output reversed: `some j` means an enclosing
`<Section>` opener was found at (original) index `j`; `none` means a
stray `</Section>` closer was hit first, or the scan was exhausted. -/
def findOpenerKeep : List String → Option Nat
  | [] => none
  | l :: rest =>
    if isSectionOpenWs (jsTrim l) then some rest.length
    else if jsTrim l = "</Section>" then none
    else findOpenerKeep rest

/-- Forward skip of `excludeSectionsByHeading`: consume lines while the
nested `<Section>` depth is positive. -/
def skipSection (depth : Nat) : List String → List String
  | [] => []
  | l :: rest =>
    match depth with
    | 0 => l :: rest
    | d + 1 =>
      let t := jsTrim l
      if isSectionOpenWs t then skipSection (d + 2) rest
      else if t = "</Section>" then skipSection d rest
      else skipSection (d + 1) rest

theorem collectMdx_length_lt (acc : List String) (ls : List String) (t : String)
    (after : List String) (h : collectMdx acc ls = some (t, after)) :
    after.length < ls.length := by
  induction ls generalizing acc with
  | nil => simp [collectMdx] at h
  | cons l rest ih =>
    simp only [collectMdx] at h
    split at h
    · simp only [Option.some.injEq, Prod.mk.injEq] at h
      simp [← h.2]
    · split at h
      · exact Nat.lt_succ_of_lt (ih _ h)
      · exact Nat.lt_succ_of_lt (ih _ h)

theorem skipSection_length_le (depth : Nat) (ls : List String) :
    (skipSection depth ls).length ≤ ls.length := by
  induction ls generalizing depth with
  | nil => simp [skipSection]
  | cons l rest ih =>
    simp only [skipSection]
    match depth with
    | 0 => simp
    | d + 1 =>
      simp only
      split
      · exact Nat.le_succ_of_le (ih _)
      · split
        · exact Nat.le_succ_of_le (ih _)
        · exact Nat.le_succ_of_le (ih _)

theorem extractMdx_length_lt (ls : List String) (t : String) (after : List String)
    (h : extractMdx ls = some (t, after)) : after.length + 1 < ls.length + 1 := by
  match ls with
  | [] => simp [extractMdx] at h
  | l :: rest =>
    simp only [extractMdx] at h
    split at h
    · have := collectMdx_length_lt [] rest t after h
      simp only [List.length_cons]
      omega
    · simp at h

/-- The main loop of `excludeSectionsByHeading`: `res` is the emitted
output so far (`result` in the source), the list argument is the
remaining input lines. -/
def excludeGo (headings : List String) (res : List String) : List String → List String
  | [] => res
  | l :: rest =>
    let t := jsTrim l
    if (match parseMarkdownHeading t with
        | some (_, txt) => headings.contains txt
        | none => false) = true then
      match parseMarkdownHeading t with
      | some (lvl, _) =>
        excludeGo headings res (rest.dropWhile (fun x => !(stopsAtLE lvl x)))
      | none => res -- unreachable: the guard forces a parse
    else
      match h3 : extractMdx (l :: rest) with
      | some (txt, after) =>
        if headings.contains txt then
          let res' := match findOpenerKeep res.reverse with
                      | some j => res.take j
                      | none => res
          excludeGo headings res' (skipSection 1 after)
        else
          excludeGo headings (res ++ [l]) rest
      | none =>
        excludeGo headings (res ++ [l]) rest
  termination_by ls => ls.length
  decreasing_by
  · simp only [List.length_cons]
    have := (List.dropWhile_suffix (l := rest) (fun x => !(stopsAtLE lvl x))).length_le
    omega
  · have h4 := extractMdx_length_lt _ _ _ h3
    have h5 := skipSection_length_le 1 after
    simp only [List.length_cons] at h4 ⊢
    omega
  · simp
  · simp

/-- `excludeSectionsByHeading` from content.ts (list of headings given;
the empty list is the `length === 0` guard). -/
def excludeSectionsByHeading (content : String) (headingsToExclude : List String) : String :=
  if headingsToExclude.isEmpty then content
  else String.intercalate "\n" (excludeGo headingsToExclude [] (splitLines content))

/-- Wrapper making the `!headingsToExclude` (missing-argument) guard of the
source explicit. -/
def excludeSectionsByHeadingOpt (content : String) (headingsToExclude : Option (List String)) : String :=
  match headingsToExclude with
  | none => content
  | some hs => excludeSectionsByHeading content hs

/-! ## processHeadingTags (postprocess step 8) -/

/-- State of the `processHeadingTags` loop. -/
structure HState where
  inCode : Bool
  level : Nat
  inHeading : Bool
  content : List String
  deriving Repr, DecidableEq

/-- Loop body of `processHeadingTags`, returning the updated state and
the lines pushed for this input line. -/
def hstep (s : HState) (line : String) : HState × List String :=
  let t := jsTrim line
  if jsStartsWith t "```" then
    ({ s with inCode := !s.inCode }, [line])
  else if s.inCode then
    (s, [line])
  else
    match mdHeadingLevel t with
    | some n => ({ s with level := n }, [line])
    | none =>
      if isHeadingOpen t then
        ({ s with inHeading := true, content := [] }, [])
      else if t = "</Heading>" then
        let text := jsTrim (String.intercalate " " s.content)
        if text ≠ "" then
          let lvl := min (s.level + 1) 6
          ({ s with inHeading := false, level := lvl, content := [] },
           [String.mk (List.replicate lvl '#') ++ " " ++ text])
        else
          ({ s with inHeading := false, content := [] }, [])
      else if s.inHeading then
        if t ≠ "" then ({ s with content := s.content ++ [t] }, []) else (s, [])
      else
        (s, [line])

/-- Run the `processHeadingTags` loop over a list of lines. -/
def hgo (s : HState) : List String → List String
  | [] => []
  | l :: rest => (hstep s l).2 ++ hgo (hstep s l).1 rest

/-- Final state of the `processHeadingTags` loop. -/
def hstate (s : HState) (lines : List String) : HState :=
  lines.foldl (fun st l => (hstep st l).1) s

/-- `processHeadingTags` from the postprocess module
(`currentHeadingLevel` starts at 1). -/
def processHeadingTags (content : String) : String :=
  String.intercalate "\n" (hgo ⟨false, 1, false, []⟩ (splitLines content))

/-- The lines `processHeadingTags` processes while its `inCodeBlock` flag
is true (fence toggling in this pass depends only on that flag). -/
def htFenceInterior (inCode : Bool) : List String → List String
  | [] => []
  | l :: rest =>
    if jsStartsWith (jsTrim l) "```" then htFenceInterior (!inCode) rest
    else if inCode then l :: htFenceInterior inCode rest
    else htFenceInterior inCode rest

/-! ## normalizeWhitespace (postprocess final step) -/

/-- Loop body of `normalizeWhitespace`; the source consults the emitted
output (`output[output.length - 1]`), so the accumulator is explicit. -/
def nwGo (acc : List String) (inCode inFM fmEnded : Bool) : List String → List String
  | [] => acc
  | line :: rest =>
    let t := jsTrim line
    if t = "---" ∧ ¬fmEnded ∧ ¬inFM then
      nwGo (acc ++ [jsTrimEnd line]) inCode true fmEnded rest
    else if t = "---" ∧ inFM then
      nwGo (acc ++ [jsTrimEnd line]) inCode false true rest
    else if inFM then
      nwGo (acc ++ [jsTrimEnd line]) inCode inFM fmEnded rest
    else if jsStartsWith t "```" then
      let acc' := if ¬inCode ∧ acc ≠ [] ∧ jsTrim ((acc.getLast?).getD "") ≠ "" then acc ++ [""] else acc
      nwGo (acc' ++ [jsTrimEnd line]) (!inCode) inFM fmEnded rest
    else if inCode then
      nwGo (acc ++ [jsTrimEnd line]) inCode inFM fmEnded rest
    else if jsStartsWith t "#" then
      let acc' := if acc ≠ [] ∧ jsTrim ((acc.getLast?).getD "") ≠ "" then acc ++ [""] else acc
      nwGo (acc' ++ [jsTrimEnd line, ""]) inCode inFM fmEnded rest
    else if t = "" then
      let acc' := if acc = [] ∨ jsTrim ((acc.getLast?).getD "") ≠ "" then acc ++ [""] else acc
      nwGo acc' inCode inFM fmEnded rest
    else
      let acc' := if acc ≠ [] ∧ jsTrim ((acc.getLast?).getD "") = "```" then acc ++ [""] else acc
      nwGo (acc' ++ [jsTrimEnd line]) inCode inFM fmEnded rest

/-- `normalizeWhitespace` from the postprocess module. -/
def normalizeWhitespace (content : String) : String :=
  String.intercalate "\n" (nwGo [] false false false (splitLines content))

/-! ## processProcedureStepTags (postprocess step 4) -/

/-- `joinTitleLines` from the postprocess module: join with single spaces
except before leading punctuation, skipping blank parts. -/
def joinTitleLines (ls : List String) : String :=
  match ls with
  | [] => ""
  | l :: rest =>
    rest.foldl
      (fun acc part' =>
        let part := jsTrim part'
        if part = "" then acc
        else if (part.toList.head?.elim false (fun c => c ∈ ['.', ',', ';', ':', '!', '?'])) then
          acc ++ part
        else acc ++ " " ++ part)
      (jsTrim l)

/-- The punctuation class `[.,;:!?]` of `normalizeForComparison`. -/
def isPunctChar (c : Char) : Bool := c ∈ ['.', ',', ';', ':', '!', '?']

/-- `.replace(/\s+([.,;:!?])/g, "$1")`: a (maximal) whitespace run
immediately followed by punctuation is dropped.  `pending` holds the
whitespace run read so far, in reverse. -/
def nfcDropWsBeforePunct (pending : List Char) : List Char → List Char
  | [] => pending.reverse
  | c :: cs =>
    if isWsChar c then nfcDropWsBeforePunct (c :: pending) cs
    else if isPunctChar c ∧ pending ≠ [] then c :: nfcDropWsBeforePunct [] cs
    else pending.reverse ++ c :: nfcDropWsBeforePunct [] cs

/-- `.replace(/([.,;:!?])\s+/g, "$1 ")`: a punctuation character followed
by a whitespace run keeps a single space.  `skipWs` is set while the
remainder of an already-replaced run is being consumed. -/
def nfcSingleSpaceAfterPunct (skipWs : Bool) : List Char → List Char
  | [] => []
  | c :: cs =>
    if skipWs ∧ isWsChar c then nfcSingleSpaceAfterPunct true cs
    else if isPunctChar c ∧ (cs.head?.elim false isWsChar) then
      c :: ' ' :: nfcSingleSpaceAfterPunct true cs
    else c :: nfcSingleSpaceAfterPunct false cs

/-- `.replace(/\s+/g, " ")`: collapse whitespace runs to one space
(`inRun` is set while inside a run whose space was already emitted). -/
def nfcCollapseWs (inRun : Bool) : List Char → List Char
  | [] => []
  | c :: cs =>
    if isWsChar c then
      (if inRun then nfcCollapseWs true cs else ' ' :: nfcCollapseWs true cs)
    else c :: nfcCollapseWs false cs

/-- `.replace(/[.\s]+$/, "")`: strip a trailing run of periods/whitespace. -/
def nfcStripTrailing (l : List Char) : List Char :=
  (l.reverse.dropWhile (fun c => c = '.' ∨ isWsChar c)).reverse

/-- `normalizeForComparison` from `processProcedureStepTags`. -/
def normalizeForComparison (text : String) : String :=
  String.mk (trimChars ((nfcStripTrailing (nfcCollapseWs false (nfcSingleSpaceAfterPunct false
    (nfcDropWsBeforePunct [] text.toList)))).map Char.toLower))

/-- State of the `processProcedureStepTags` loop. -/
structure PState where
  inCode : Bool
  inProc : Bool
  inStep : Bool
  stepNumber : Nat
  titleLines : List String
  collecting : Bool
  lastTitle : String
  inHeading : Bool
  headingLines : List String
  deriving Repr, DecidableEq

/-- Loop body of `processProcedureStepTags` (the `emitStepTitle` helper of
the source is inlined at its two uses). -/
def pstep (s : PState) (line : String) : PState × List String :=
  let t := jsTrim line
  if jsStartsWith t "```" then
    ({ s with inCode := !s.inCode },
     if s.inProc ∧ s.inStep ∧ ¬s.collecting then [dedentClamped 4 line] else [line])
  else if s.inCode then
    (s, if s.inProc ∧ s.inStep then [dedentClamped 4 line] else [line])
  else if isProcedureOpen t then
    ({ s with inProc := true, stepNumber := 0 }, [])
  else if t = "</Procedure>" then
    ({ s with inProc := false, stepNumber := 0 }, [])
  else if t = "<Step>" then
    ({ s with inStep := true, stepNumber := s.stepNumber + 1,
              titleLines := [], collecting := true }, [])
  else if t = "</Step>" then
    let out := if s.collecting ∧ s.titleLines ≠ [] then
                 ["**Step " ++ toString s.stepNumber ++ ":** " ++ joinTitleLines s.titleLines]
               else []
    ({ s with inStep := false, collecting := false, lastTitle := "", titleLines :=
        if s.collecting ∧ s.titleLines ≠ [] then [] else s.titleLines }, out)
  else if s.inProc ∧ s.inStep then
    if t = "<Heading>" then
      ({ s with inHeading := true, headingLines := [] }, [])
    else if t = "</Heading>" then
      let ht := joinTitleLines s.headingLines
      if normalizeForComparison ht = normalizeForComparison s.lastTitle then
        ({ s with inHeading := false, headingLines := [] }, [])
      else
        ({ s with inHeading := false, headingLines := [] },
         "<Heading>" :: s.headingLines ++ ["</Heading>"])
    else if s.inHeading then
      (if t ≠ "" then { s with headingLines := s.headingLines ++ [t] } else s, [])
    else if s.collecting then
      if isSectionOpenAny t then
        -- emitStepTitle
        if s.titleLines ≠ [] then
          let title := joinTitleLines s.titleLines
          ({ s with lastTitle := title, titleLines := [], collecting := false },
           ["**Step " ++ toString s.stepNumber ++ ":** " ++ title, ""])
        else
          ({ s with collecting := false }, [])
      else if t = "" then
        (s, [])
      else
        match parseMarkdownHeading t with
        | some (_, ht) =>
          -- emitStepTitle, then duplicate-heading check
          let s' := if s.titleLines ≠ [] then
                      { s with lastTitle := joinTitleLines s.titleLines,
                               titleLines := [], collecting := false }
                    else { s with collecting := false }
          let out := if s.titleLines ≠ [] then
                       ["**Step " ++ toString s.stepNumber ++ ":** " ++ joinTitleLines s.titleLines, ""]
                     else []
          if normalizeForComparison ht = normalizeForComparison s'.lastTitle then
            (s', out)
          else
            (s', out ++ [dedentClamped 4 line])
        | none =>
          ({ s with titleLines := s.titleLines ++ [t] }, [])
    else
      match parseMarkdownHeading t with
      | some (_, ht) =>
        if s.lastTitle ≠ "" ∧ normalizeForComparison ht = normalizeForComparison s.lastTitle then
          (s, [])
        else
          (s, [dedentClamped 4 line])
      | none => (s, [dedentClamped 4 line])
  else
    (s, [line])

/-- Run the `processProcedureStepTags` loop. -/
def pgo (s : PState) : List String → List String
  | [] => []
  | l :: rest => (pstep s l).2 ++ pgo (pstep s l).1 rest

/-- Initial state of `processProcedureStepTags`. -/
def pInit : PState := ⟨false, false, false, 0, [], false, "", false, []⟩

/-- `processProcedureStepTags` from the postprocess module. -/
def processProcedureStepTags (content : String) : String :=
  String.intercalate "\n" (pgo pInit (splitLines content))

/-! ## validateAndConvertDocsUrls (url-validator.ts)

The `fetch`-based reachability probe (`checkUrlAccessible`) is network
I/O; it is abstracted as an oracle `probe : String → Bool` passed to the
embedded function.  Diagnostics (`console.warn`) are collected in a list. -/

/-- A match of `MONGODB_LINK_PATTERN` on a line: the full matched text,
the link text (group 1) and the URL (group 2, trailing slash excluded). -/
structure LinkMatch where
  full : List Char
  text : List Char
  url : List Char
  deriving Repr, DecidableEq

/-- Strip a concrete character sequence from the front. -/
def stripChars : List Char → List Char → Option (List Char)
  | [], s => some s
  | _ :: _, [] => none
  | p :: ps, c :: cs => if c = p then stripChars ps cs else none

/-- `https?` — `s?` is deterministic here because `:` is not `s`. -/
def matchScheme (s : List Char) : Option (List Char × List Char) :=
  match stripChars "http".toList s with
  | none => none
  | some r1 =>
    match r1 with
    | 's' :: r => some ("https".toList, r)
    | _ => some ("http".toList, r1)

/-- `(?:www\.)?mongodb\.com\/` — the optional `www.` is deterministic
because `mongodb.com/` cannot itself start with `www.`. -/
def matchHost (s : List Char) : Option (List Char × List Char) :=
  match stripChars "www.".toList s with
  | some r =>
    match stripChars "mongodb.com/".toList r with
    | some r2 => some ("www.mongodb.com/".toList, r2)
    | none => none
  | none =>
    match stripChars "mongodb.com/".toList s with
    | some r2 => some ("mongodb.com/".toList, r2)
    | none => none

/-- `(?:docs|developer)\/` — the alternatives are mutually exclusive. -/
def matchSection (s : List Char) : Option (List Char × List Char) :=
  match stripChars "docs/".toList s with
  | some r => some ("docs/".toList, r)
  | none =>
    match stripChars "developer/".toList s with
    | some r => some ("developer/".toList, r)
    | none => none

/-- Match the URL prefix `https?:\/\/(?:www\.)?mongodb\.com\/(?:docs|developer)\/`
returning the consumed characters and the remainder. -/
def matchMongoPrefix (s : List Char) : Option (List Char × List Char) :=
  match matchScheme s with
  | none => none
  | some (sch, r1) =>
    match stripChars "://".toList r1 with
    | none => none
    | some r2 =>
      match matchHost r2 with
      | none => none
      | some (host, r3) =>
        match matchSection r3 with
        | none => none
        | some (sec, r4) => some (sch ++ "://".toList ++ host ++ sec, r4)

/-- Characters admissible in the lazily-matched URL tail: `[^)\s]`. -/
def isUrlTailChar (c : Char) : Bool := c ≠ ')' ∧ ¬c.isWhitespace

/-- `[^\]]+\]\(`: a nonempty run of non-`]` characters, then `](`. -/
def splitLinkText (rest : List Char) : Option (List Char × List Char) :=
  match rest.takeWhile (fun c => c ≠ ']') with
  | [] => none
  | text =>
    match rest.dropWhile (fun c => c ≠ ']') with
    | ']' :: '(' :: r => some (text, r)
    | _ => none

/-- `[^)\s]+?\/?\)`: the nonempty run up to the closing parenthesis. -/
def splitUrlTail (rest4 : List Char) : Option (List Char × List Char) :=
  match rest4.takeWhile isUrlTailChar with
  | [] => none
  | r =>
    match rest4.dropWhile isUrlTailChar with
    | ')' :: rest6 => some (r, rest6)
    | _ => none

/-- Try to match `MONGODB_LINK_PATTERN` at the start of `s`; on success
return the match and the characters after it. -/
def tryMatchAt (s : List Char) : Option (LinkMatch × List Char) :=
  match s with
  | [] => none
  | c :: rest =>
    if c = '[' then
    match splitLinkText rest with
    | none => none
    | some (text, rest3) =>
      match matchMongoPrefix rest3 with
      | none => none
      | some (pfx, rest4) =>
        match splitUrlTail rest4 with
        | none => none
        | some (r, rest6) =>
          -- lazy `[^)\s]+?` keeps the shorter capture, so a single
          -- trailing '/' is consumed by the `\/?` outside group 2
          let x := if 2 ≤ r.length ∧ r.getLast? = some '/' then r.dropLast else r
          some (⟨'[' :: text ++ ']' :: '(' :: pfx ++ r ++ [')'], text, pfx ++ x⟩, rest6)
    else none

theorem stripChars_append (p s r : List Char) (h : stripChars p s = some r) :
    s = p ++ r := by
  induction p generalizing s with
  | nil => simp [stripChars] at h; simp [h]
  | cons c cs ih =>
    match s with
    | [] => simp [stripChars] at h
    | a :: as =>
      simp only [stripChars] at h
      split at h
      · rename_i hac
        simp [hac, ih _ h]
      · simp at h

theorem matchScheme_append (s sch r : List Char) (h : matchScheme s = some (sch, r)) :
    s = sch ++ r := by
  simp only [matchScheme] at h
  split at h
  · simp at h
  · rename_i r1 h1
    have e := stripChars_append _ _ _ h1
    subst e
    split at h
    · rename_i rr
      simp only [Option.some.injEq, Prod.mk.injEq] at h
      rw [← h.1, ← h.2]
      have hs : "http".toList ++ ['s'] = "https".toList := by decide
      rw [← hs, List.append_assoc]
      rfl
    · simp only [Option.some.injEq, Prod.mk.injEq] at h
      rw [← h.1, ← h.2]

theorem matchHost_append (s host r : List Char) (h : matchHost s = some (host, r)) :
    s = host ++ r := by
  simp only [matchHost] at h
  split at h
  · rename_i r1 h1
    split at h
    · rename_i r2 h2
      simp only [Option.some.injEq, Prod.mk.injEq] at h
      have e1 := stripChars_append _ _ _ h1
      have e2 := stripChars_append _ _ _ h2
      subst e2
      rw [e1, ← h.1, ← h.2]
      rfl
    · simp at h
  · split at h
    · rename_i r2 h2
      simp only [Option.some.injEq, Prod.mk.injEq] at h
      have e2 := stripChars_append _ _ _ h2
      rw [e2, ← h.1, ← h.2]
    · simp at h

theorem matchSection_append (s sec r : List Char) (h : matchSection s = some (sec, r)) :
    s = sec ++ r := by
  simp only [matchSection] at h
  split at h
  · rename_i r1 h1
    simp only [Option.some.injEq, Prod.mk.injEq] at h
    have := stripChars_append _ _ _ h1
    rw [this, ← h.1, ← h.2]
  · split at h
    · rename_i r1 h1
      simp only [Option.some.injEq, Prod.mk.injEq] at h
      have := stripChars_append _ _ _ h1
      rw [this, ← h.1, ← h.2]
    · simp at h

theorem matchMongoPrefix_append (s pfx r : List Char)
    (h : matchMongoPrefix s = some (pfx, r)) : s = pfx ++ r := by
  simp only [matchMongoPrefix] at h
  split at h
  · simp at h
  · rename_i sch r1 h1
    split at h
    · simp at h
    · rename_i r2 h2
      split at h
      · simp at h
      · rename_i host r3 h3
        split at h
        · simp at h
        · rename_i sec r4 h4
          simp only [Option.some.injEq, Prod.mk.injEq] at h
          rw [matchScheme_append _ _ _ h1, stripChars_append _ _ _ h2,
              matchHost_append _ _ _ h3, matchSection_append _ _ _ h4,
              ← h.1, ← h.2]
          simp

theorem splitLinkText_append (rest text r : List Char)
    (h : splitLinkText rest = some (text, r)) : rest = text ++ ']' :: '(' :: r := by
  simp only [splitLinkText] at h
  split at h
  · simp at h
  · rename_i text' htw
    split at h
    · rename_i r' hdw
      simp only [Option.some.injEq, Prod.mk.injEq] at h
      have e := (List.takeWhile_append_dropWhile (p := fun c => c ≠ ']') (l := rest)).symm
      rw [hdw, h.1, h.2] at e
      exact e
    · simp at h

theorem splitUrlTail_append (rest4 r rest6 : List Char)
    (h : splitUrlTail rest4 = some (r, rest6)) : rest4 = r ++ ')' :: rest6 := by
  simp only [splitUrlTail] at h
  split at h
  · simp at h
  · rename_i r' htw
    split at h
    · rename_i rest6' hdw
      simp only [Option.some.injEq, Prod.mk.injEq] at h
      have e := (List.takeWhile_append_dropWhile (p := isUrlTailChar) (l := rest4)).symm
      rw [hdw, h.1, h.2] at e
      exact e
    · simp at h

theorem tryMatchAt_spec (s : List Char) (m : LinkMatch) (r : List Char)
    (h : tryMatchAt s = some (m, r)) : s = m.full ++ r ∧ m.full ≠ [] := by
  cases s with
  | nil => simp [tryMatchAt] at h
  | cons c rest =>
    by_cases hc : c = '['
    · subst hc
      simp only [tryMatchAt] at h
      split at h
      · split at h
        · simp at h
        · rename_i text rest3 hsplit
          split at h
          · simp at h
          · rename_i pfx rest4 hpfx
            split at h
            · simp at h
            · rename_i rr rest6 htail
              simp only [Option.some.injEq, Prod.mk.injEq] at h
              refine ⟨?_, ?_⟩
              · rw [← h.2, ← h.1]
                simp only
                rw [splitLinkText_append _ _ _ hsplit, matchMongoPrefix_append _ _ _ hpfx,
                    splitUrlTail_append _ _ _ htail]
                simp
              · rw [← h.1]
                simp
      · simp_all
    · simp [tryMatchAt, hc] at h

theorem tryMatchAt_length_lt (s : List Char) (m : LinkMatch) (r : List Char)
    (h : tryMatchAt s = some (m, r)) : r.length < s.length := by
  obtain ⟨e, hne⟩ := tryMatchAt_spec s m r h
  rw [e, List.length_append]
  have : 0 < m.full.length := List.length_pos.mpr hne
  omega

/-- Global scan of `MONGODB_LINK_PATTERN` over a line (JS `exec` loop):
leftmost matches, resuming after each match. -/
def findMatches : List Char → List LinkMatch
  | [] => []
  | c :: cs =>
    match h : tryMatchAt (c :: cs) with
    | some (m, rest) => m :: findMatches rest
    | none => findMatches cs
  termination_by l => l.length
  decreasing_by
  · have := tryMatchAt_length_lt _ _ _ h
    simpa using this
  · simp

/-- `url.replace(/\/$/, "")`: strip one trailing slash. -/
def stripTrailingSlash (u : String) : String :=
  if jsEndsWith u "/" then jsDropRight u 1 else u

/-- The canonical `.md` URL: `cleanUrl.endsWith(".md") ? cleanUrl : cleanUrl + ".md"`. -/
def toMdUrl (u : String) : String :=
  let c := stripTrailingSlash u
  if jsEndsWith c ".md" then c else c ++ ".md"

/-- JS `String.prototype.replace` with a string pattern: replace the first
occurrence only. -/
def replaceFirstChars (s pat repl : List Char) : List Char :=
  match s with
  | [] => []
  | c :: cs => if pat.isPrefixOf s then repl ++ s.drop pat.length else c :: replaceFirstChars cs pat repl

/-- The diagnostic location string: `sourceFile:lineNum+1` or `line lineNum+1`. -/
def diagLocation (sourceFile : Option String) (lineNum : Nat) : String :=
  match sourceFile with
  | some f => f ++ ":" ++ toString (lineNum + 1)
  | none => "line " ++ toString (lineNum + 1)

/-- Per-line body of `validateAndConvertDocsUrls` (the non-fence branch):
collect the matches, then sequentially probe and rewrite.  Returns the
processed line and the emitted diagnostics. -/
def processLine (probe : String → Bool) (sourceFile : Option String) (lineNum : Nat)
    (line : String) : String × List String :=
  let ms := findMatches line.toList
  ms.foldl
    (fun acc m =>
      let url := String.mk m.url
      let mdUrl := toMdUrl url
      let linkText := String.mk m.text
      if probe mdUrl then
        let newLink := "[" ++ linkText ++ "](" ++ mdUrl ++ ")"
        (String.mk (replaceFirstChars acc.1.toList m.full newLink.toList), acc.2)
      else
        (String.mk (replaceFirstChars acc.1.toList m.full m.text),
         acc.2 ++ ["Warning: Broken link at " ++ diagLocation sourceFile lineNum ++ ": " ++
                   mdUrl ++ " - removing link, keeping text \"" ++ linkText ++ "\""]))
    (line, [])

/-- `validateAndConvertDocsUrls`: fence-tracking outer loop. -/
def vcGo (probe : String → Bool) (sourceFile : Option String) :
    Bool → Nat → List String → List String × List String
  | _, _, [] => ([], [])
  | inCode, lineNum, line :: rest =>
    if jsStartsWith (jsTrim line) "```" then
      let (ls, ds) := vcGo probe sourceFile (!inCode) (lineNum + 1) rest
      (line :: ls, ds)
    else if inCode then
      let (ls, ds) := vcGo probe sourceFile inCode (lineNum + 1) rest
      (line :: ls, ds)
    else
      let (l', d') := processLine probe sourceFile lineNum line
      let (ls, ds) := vcGo probe sourceFile inCode (lineNum + 1) rest
      (l' :: ls, d' ++ ds)

/-- `validateAndConvertDocsUrls` from url-validator.ts, with the network
probe abstracted; returns the content and the warning diagnostics. -/
def validateAndConvertDocsUrls (probe : String → Bool) (content : String)
    (sourceFile : Option String) : String × List String :=
  let (ls, ds) := vcGo probe sourceFile false 0 (splitLines content)
  (String.intercalate "\n" ls, ds)

/-! ## Claim theorems -/

/-- C9: calling `excludeSectionsByHeading` with an empty or missing list
of headings to exclude returns the input string unchanged. -/
theorem C9_empty_exclusions_identity :
    (∀ content : String, excludeSectionsByHeading content [] = content) ∧
    (∀ content : String, excludeSectionsByHeadingOpt content none = content) :=
  ⟨fun _ => rfl, fun _ => rfl⟩

theorem hstep_fence (s : HState) (l : String) (h : jsStartsWith (jsTrim l) "```" = true) :
    hstep s l = ({ s with inCode := !s.inCode }, [l]) := by
  simp [hstep, h]

theorem hstep_inCode_true (s : HState) (l : String)
    (h1 : jsStartsWith (jsTrim l) "```" = false) (h2 : s.inCode = true) :
    hstep s l = (s, [l]) := by
  simp [hstep, h1, h2]

theorem hstep_inCode_stable (s : HState) (l : String)
    (h1 : jsStartsWith (jsTrim l) "```" = false) :
    (hstep s l).1.inCode = s.inCode := by
  simp only [hstep, h1, Bool.false_eq_true, if_false]
  split
  · rfl
  · split
    · rfl
    · split
      · rfl
      · split
        · split
          · rfl
          · rfl
        · split
          · split
            · rfl
            · rfl
          · rfl

theorem rafGo_fence_sublist (inCode inFM : Bool) (lines : List String) :
    List.Sublist (rafFenceInterior inCode inFM lines) (rafGo inCode inFM lines) := by
  induction lines generalizing inCode inFM with
  | nil => simp [rafGo, rafFenceInterior]
  | cons l rest ih =>
    simp only [rafGo, rafFenceInterior]
    by_cases h1 : jsStartsWith (jsTrim l) "```" = true
    · simp only [h1, if_true]
      exact List.Sublist.cons l (ih _ _)
    · simp only [eq_false_of_ne_true h1, Bool.false_eq_true, if_false]
      by_cases h2 : inCode = true
      · simp only [h2, if_true]
        exact List.Sublist.cons₂ l (ih _ _)
      · simp only [eq_false_of_ne_true h2, Bool.false_eq_true, if_false]
        by_cases h3 : jsTrim l = "---"
        · simp only [h3, if_pos rfl]
          exact ih _ _
        · simp only [if_neg h3]
          by_cases h4 : inFM = true
          · simp only [h4, if_true]
            exact ih _ _
          · simp only [eq_false_of_ne_true h4, Bool.false_eq_true, if_false]
            exact List.Sublist.cons l (ih _ _)

theorem hgo_fence_sublist (s : HState) (lines : List String) :
    List.Sublist (htFenceInterior s.inCode lines) (hgo s lines) := by
  induction lines generalizing s with
  | nil => simp [hgo, htFenceInterior]
  | cons l rest ih =>
    simp only [hgo, htFenceInterior]
    by_cases h1 : jsStartsWith (jsTrim l) "```" = true
    · rw [hstep_fence s l h1]
      simp only [h1, if_true]
      have := ih { s with inCode := !s.inCode }
      simp only at this
      exact List.Sublist.cons l this
    · have h1f : jsStartsWith (jsTrim l) "```" = false := eq_false_of_ne_true h1
      simp only [h1f, Bool.false_eq_true, if_false]
      by_cases h2 : s.inCode = true
      · rw [hstep_inCode_true s l h1f h2]
        simp only [h2, if_true]
        have hi := ih s
        rw [h2] at hi
        exact List.Sublist.cons₂ l hi
      · have h2f : s.inCode = false := eq_false_of_ne_true h2
        simp only [h2f, Bool.false_eq_true, if_false]
        have hstable := hstep_inCode_stable s l h1f
        have hi := ih (hstep s l).1
        rw [hstable, h2f] at hi
        exact hi.trans (List.sublist_append_right _ _)

/-- C1 (amended): the frontmatter-stripping pass and the heading-tag pass
track their fence state and copy every fence-interior line into the
output byte-identically, in order (a sublist of the output); the claim
fails as stated because `excludeSectionsByHeading` does not track fences
(see the counterexample). -/
theorem C1_fence_lines_preserved :
    (∀ (inCode inFM : Bool) (lines : List String),
        List.Sublist (rafFenceInterior inCode inFM lines) (rafGo inCode inFM lines)) ∧
    (∀ (s : HState) (lines : List String),
        List.Sublist (htFenceInterior s.inCode lines) (hgo s lines)) :=
  ⟨rafGo_fence_sublist, hgo_fence_sublist⟩

/-- C1 counterexample: `excludeSectionsByHeading` deletes lines lying
strictly inside a code fence (the fenced comment `# Troubleshooting` and
the fenced `code line` are removed), and `normalizeWhitespace` edits a
fence-interior line by trimming its trailing whitespace. -/
theorem C1_counterexample :
    excludeSectionsByHeading "```\n# Troubleshooting\ncode line\n```" ["Troubleshooting"]
        = "```" ∧
    normalizeWhitespace "```\ncode  \n```" = "```\ncode\n```" := by
  constructor
  · simp +decide [excludeSectionsByHeading, excludeGo, extractMdx, collectMdx, stopsAtLE,
      splitLines, splitLinesChars, parseMarkdownHeading, jsTrim, trimChars, isWsChar,
      isHeadingOpen, mdxOpenWithAttrs, jsStartsWith, jsEndsWith, jsDrop, jsDropRight]
  · decide

theorem dropWhile_append_all {α} (p : α → Bool) (A : List α) (l : α) (rest : List α)
    (hA : ∀ x ∈ A, p x = true) (hl : p l = false) :
    List.dropWhile p (A ++ l :: rest) = l :: rest := by
  induction A with
  | nil => simp [List.dropWhile, hl]
  | cons a A ih =>
    have ha := hA a (by simp)
    simp only [List.cons_append, List.dropWhile, ha]
    exact ih (fun x hx => hA x (by simp [hx]))

theorem dropWhile_all {α} (p : α → Bool) (A : List α)
    (hA : ∀ x ∈ A, p x = true) : List.dropWhile p A = [] := by
  induction A with
  | nil => simp
  | cons a A ih =>
    have ha := hA a (by simp)
    simp only [List.dropWhile, ha]
    exact ih (fun x hx => hA x (by simp [hx]))

theorem extractMdx_none_of_not_open (l : String) (rest : List String)
    (h : isHeadingOpen (jsTrim l) = false) : extractMdx (l :: rest) = none := by
  simp [extractMdx, h]

theorem excludeGo_nil (H R : List String) : excludeGo H R [] = R := by
  simp [excludeGo]

/-- One step of `excludeGo`: an excluded markdown heading skips forward to
the next heading of equal or higher rank. -/
theorem excludeGo_cons_md_excl (H R : List String) (l : String) (lvl : Nat)
    (txt : String) (rest : List String)
    (hp : parseMarkdownHeading (jsTrim l) = some (lvl, txt))
    (hc : H.contains txt = true) :
    excludeGo H R (l :: rest) =
      excludeGo H R (rest.dropWhile (fun x => !(stopsAtLE lvl x))) := by
  conv_lhs => rw [excludeGo.eq_def]
  simp [hp, hc]
  intro hn
  exact absurd (by simpa using hc) hn

/-- One step of `excludeGo`: a line that triggers neither branch is
emitted unchanged. -/
theorem excludeGo_cons_keep (H R : List String) (l : String) (rest : List String)
    (hguard : (match parseMarkdownHeading (jsTrim l) with
               | some (_, txt) => H.contains txt
               | none => false) = false)
    (hmdx : extractMdx (l :: rest) = none) :
    excludeGo H R (l :: rest) = excludeGo H (R ++ [l]) rest := by
  conv_lhs => rw [excludeGo.eq_def]
  simp only [hguard, Bool.false_eq_true, if_false]
  split
  · rename_i txt after h3
    rw [hmdx] at h3
    exact absurd h3 (by simp)
  · rfl

/-- One step of `excludeGo`: an excluded tag-based heading truncates the
emitted output at the enclosing `<Section>` opener (when one is found) and
skips the input forward past the matching `</Section>`. -/
theorem excludeGo_cons_mdx_excl (H R : List String) (l : String) (txt : String)
    (after rest : List String)
    (hguard : (match parseMarkdownHeading (jsTrim l) with
               | some (_, txt) => H.contains txt
               | none => false) = false)
    (hmdx : extractMdx (l :: rest) = some (txt, after))
    (hc : H.contains txt = true) :
    excludeGo H R (l :: rest) =
      excludeGo H (match findOpenerKeep R.reverse with
                   | some j => R.take j
                   | none => R) (skipSection 1 after) := by
  conv_lhs => rw [excludeGo.eq_def]
  simp only [hguard, Bool.false_eq_true, if_false]
  split
  · rename_i txt' after' h3
    rw [hmdx] at h3
    simp only [Option.some.injEq, Prod.mk.injEq] at h3
    rw [← h3.1, ← h3.2]
    simp [hc]
    intro hn
    exact absurd (by simpa using hc) hn
  · rename_i h3
    rw [hmdx] at h3
    exact absurd h3 (by simp)

/-- C6 counterexample: a fence-marker line lying strictly between the two
frontmatter delimiters is kept in the output rather than dropped (the
surrounding `key: val` frontmatter line is dropped). -/
theorem C6_counterexample :
    removeAllFrontmatter "---\n```\nkey: val\n---" = "```" := by decide

theorem rafGo_open_delim (d : String) (rest : List String) (hd : jsTrim d = "---") :
    rafGo false false (d :: rest) = rafGo false true rest := by
  simp only [rafGo, hd]
  simp +decide

theorem rafGo_close_delim (d : String) (rest : List String) (hd : jsTrim d = "---") :
    rafGo false true (d :: rest) = rafGo false false rest := by
  simp only [rafGo, hd]
  simp +decide

theorem rafGo_inFM (mid rest : List String)
    (h : ∀ l ∈ mid, jsTrim l ≠ "---") :
    rafGo false true (mid ++ rest) =
      mid.filter (fun l => jsStartsWith (jsTrim l) "```") ++ rafGo false true rest := by
  induction mid with
  | nil => simp
  | cons l mid ih =>
    have hne := h l (by simp)
    by_cases hf : jsStartsWith (jsTrim l) "```" = true
    · simp only [List.cons_append, rafGo, hf, if_true, if_pos rfl, List.filter_cons, hf]
      exact congrArg (l :: ·) (ih (fun x hx => h x (by simp [hx])))
    · have hff : jsStartsWith (jsTrim l) "```" = false := eq_false_of_ne_true hf
      simp only [List.cons_append, rafGo, hff, Bool.false_eq_true, if_false,
        if_neg hne, if_pos rfl, List.filter_cons]
      exact ih (fun x hx => h x (by simp [hx]))

/-- C6 (amended): a frontmatter block drops its two delimiter lines and
every line strictly between them EXCEPT lines whose trimmed content
starts with the fence delimiter — those are kept (without toggling fence
state); outside frontmatter and fences, non-delimiter lines pass through
unchanged. -/
theorem C6_frontmatter_blocks :
    (∀ (d1 d2 : String) (mid rest : List String),
        jsTrim d1 = "---" → jsTrim d2 = "---" →
        (∀ l ∈ mid, jsTrim l ≠ "---") →
        rafGo false false (d1 :: (mid ++ d2 :: rest)) =
          mid.filter (fun l => jsStartsWith (jsTrim l) "```") ++ rafGo false false rest) ∧
    (∀ (body rest : List String),
        (∀ l ∈ body, jsTrim l ≠ "---" ∧ jsStartsWith (jsTrim l) "```" = false) →
        rafGo false false (body ++ rest) = body ++ rafGo false false rest) := by
  constructor
  · intro d1 d2 mid rest hd1 hd2 hmid
    rw [rafGo_open_delim d1 _ hd1, rafGo_inFM mid (d2 :: rest) hmid,
        rafGo_close_delim d2 rest hd2]
  · intro body rest h
    induction body with
    | nil => simp
    | cons l body ih =>
      obtain ⟨hne, hf⟩ := h l (by simp)
      simp only [List.cons_append, rafGo, hf, Bool.false_eq_true, if_false, if_neg hne]
      exact congrArg (l :: ·) (ih (fun x hx => h x (by simp [hx])))

/-- C6 witness: a concrete frontmatter block containing a fence marker. -/
theorem C6_witness :
    rafGo false false ("---" :: (["key: val", "```"] ++ "---" :: ["body"])) =
      ["key: val", "```"].filter (fun l => jsStartsWith (jsTrim l) "```") ++
        rafGo false false ["body"] :=
  C6_frontmatter_blocks.1 "---" "---" ["key: val", "```"] ["body"]
    (by decide) (by decide) (by decide)

/-- C8: a literal markdown heading is excluded exactly on a case-sensitive
exact match of its text: (1) lines that are not excluded headings (and not
tag-heading openers) are emitted unchanged; (2) an excluded heading is
dropped together with every following line up to but not including the
next heading of equal or higher rank; (3) with no such stop heading,
everything to end of document is dropped; (4) the concrete scenario: a
sentence containing "Troubleshooting" and a heading "## troubleshooting"
(different case) survive while the "## Troubleshooting" section is
removed. -/
theorem C8_exact_heading_exclusion :
    (∀ (H R A rest : List String),
        (∀ l ∈ A, (match parseMarkdownHeading (jsTrim l) with
                   | some (_, txt) => H.contains txt = false
                   | none => True) ∧ isHeadingOpen (jsTrim l) = false) →
        excludeGo H R (A ++ rest) = excludeGo H (R ++ A) rest) ∧
    (∀ (H R : List String) (hl : String) (lvl : Nat) (txt : String) (B : List String)
        (stop : String) (rest : List String),
        parseMarkdownHeading (jsTrim hl) = some (lvl, txt) → H.contains txt = true →
        (∀ l ∈ B, stopsAtLE lvl l = false) → stopsAtLE lvl stop = true →
        excludeGo H R (hl :: (B ++ stop :: rest)) = excludeGo H R (stop :: rest)) ∧
    (∀ (H R : List String) (hl : String) (lvl : Nat) (txt : String) (B : List String),
        parseMarkdownHeading (jsTrim hl) = some (lvl, txt) → H.contains txt = true →
        (∀ l ∈ B, stopsAtLE lvl l = false) →
        excludeGo H R (hl :: B) = R) ∧
    excludeSectionsByHeading
        "# Intro\nSee Troubleshooting for details.\n## Troubleshooting\nbad stuff\nmore\n## Next\nok\n## troubleshooting\nkept"
        ["Troubleshooting"] =
      "# Intro\nSee Troubleshooting for details.\n## Next\nok\n## troubleshooting\nkept" := by
  refine ⟨?_, ?_, ?_, ?_⟩
  · intro H R A rest hA
    induction A generalizing R with
    | nil => simp
    | cons l A ih =>
      obtain ⟨hparse, hopen⟩ := hA l (by simp)
      have hmdx := extractMdx_none_of_not_open l (A ++ rest) hopen
      have hguard : (match parseMarkdownHeading (jsTrim l) with
                     | some (_, txt) => H.contains txt
                     | none => false) = false := by
        revert hparse
        cases parseMarkdownHeading (jsTrim l) with
        | none => intro _; rfl
        | some v => intro hv; exact hv
      rw [List.cons_append, excludeGo_cons_keep H R l (A ++ rest) hguard hmdx,
          ih (R ++ [l]) (fun x hx => hA x (by simp [hx])), List.append_assoc]
      rfl
  · intro H R hl lvl txt B stop rest hp hc hB hstop
    rw [excludeGo_cons_md_excl H R hl lvl txt _ hp hc,
        dropWhile_append_all _ B stop rest
          (fun x hx => by simp [hB x hx]) (by simp [hstop])]
  · intro H R hl lvl txt B hp hc hB
    rw [excludeGo_cons_md_excl H R hl lvl txt _ hp hc,
        dropWhile_all _ B (fun x hx => by simp [hB x hx]), excludeGo_nil]
  · simp +decide [excludeSectionsByHeading, excludeGo, extractMdx, collectMdx, stopsAtLE,
      splitLines, splitLinesChars, parseMarkdownHeading, jsTrim, trimChars, isWsChar,
      isHeadingOpen, mdxOpenWithAttrs, jsStartsWith, jsEndsWith, jsDrop, jsDropRight]

/-- C8 witness: the general clauses applied to a concrete document. -/
theorem C8_witness :
    excludeGo ["Troubleshooting"] [] (["intro"] ++ ["## Troubleshooting"]) =
      excludeGo ["Troubleshooting"] ([] ++ ["intro"]) ["## Troubleshooting"] ∧
    excludeGo ["Troubleshooting"] ["intro"]
        ("## Troubleshooting" :: (["bad"] ++ "## Next" :: ["ok"])) =
      excludeGo ["Troubleshooting"] ["intro"] ("## Next" :: ["ok"]) :=
  ⟨C8_exact_heading_exclusion.1 ["Troubleshooting"] [] ["intro"] ["## Troubleshooting"]
      (by
        intro l hl
        simp at hl
        subst hl
        refine ⟨?_, by decide⟩
        rw [show parseMarkdownHeading (jsTrim "intro") = none from by decide]
        trivial),
   C8_exact_heading_exclusion.2.1 ["Troubleshooting"] ["intro"] "## Troubleshooting" 2
      "Troubleshooting" ["bad"] "## Next" ["ok"] (by decide) (by decide)
      (by intro l hl; simp at hl; subst hl; decide) (by decide)⟩

/-- C5 counterexample: with a stray `</Section>` closer in the emitted
output, excluding the tag-heading "Bad" removes not only the heading
construct but also the following input up to the next `</Section>`
("after1" and that closer are gone from the output). -/
theorem C5_counterexample :
    excludeSectionsByHeading
        "keep1\n</Section>\n<Heading>\nBad\n</Heading>\nafter1\n</Section>\nafter2"
        ["Bad"] = "keep1\n</Section>\nafter2" ∧
    "after1" ∉ splitLines "keep1\n</Section>\nafter2" := by
  constructor
  · simp +decide [excludeSectionsByHeading, excludeGo, extractMdx, collectMdx, stopsAtLE,
      skipSection, findOpenerKeep, splitLines, splitLinesChars, parseMarkdownHeading,
      jsTrim, trimChars, isWsChar, isHeadingOpen, isSectionOpenWs, mdxOpenWithAttrs,
      jsStartsWith, jsEndsWith, jsDrop, jsDropRight]
  · decide

theorem skipSection_zero (B : List String) : skipSection 0 B = B := by
  cases B <;> simp [skipSection]

/-- C5 (amended): when the backward scan hits a stray closer (or runs
out) before any `<Section>` opener, the already-emitted output is left
untouched — nothing is truncated — but the input following the heading
construct is still consumed up to and including the next unmatched
`</Section>` (or to end of input); processing then continues. -/
theorem C5_stray_closer :
    (∀ (H R : List String) (l txt : String) (after rest : List String),
        (match parseMarkdownHeading (jsTrim l) with
         | some (_, t) => H.contains t
         | none => false) = false →
        extractMdx (l :: rest) = some (txt, after) →
        H.contains txt = true →
        findOpenerKeep R.reverse = none →
        excludeGo H R (l :: rest) = excludeGo H R (skipSection 1 after)) ∧
    (∀ (A : List String) (closer : String) (B : List String),
        (∀ x ∈ A, isSectionOpenWs (jsTrim x) = false ∧ jsTrim x ≠ "</Section>") →
        jsTrim closer = "</Section>" →
        skipSection 1 (A ++ closer :: B) = B) ∧
    (∀ A : List String,
        (∀ x ∈ A, isSectionOpenWs (jsTrim x) = false ∧ jsTrim x ≠ "</Section>") →
        skipSection 1 A = []) := by
  refine ⟨?_, ?_, ?_⟩
  · intro H R l txt after rest hguard hmdx hc hscan
    rw [excludeGo_cons_mdx_excl H R l txt after rest hguard hmdx hc, hscan]
  · intro A closer B hA hcl
    induction A with
    | nil =>
      simp only [List.nil_append, skipSection, hcl]
      rw [if_neg (show ¬isSectionOpenWs "</Section>" = true by decide)]
      rw [if_pos trivial, skipSection_zero]
    | cons a A ih =>
      obtain ⟨ho, hne⟩ := hA a (by simp)
      simp only [List.cons_append, skipSection, ho, Bool.false_eq_true, if_false, if_neg hne]
      exact ih (fun x hx => hA x (by simp [hx]))
  · intro A hA
    induction A with
    | nil => simp [skipSection]
    | cons a A ih =>
      obtain ⟨ho, hne⟩ := hA a (by simp)
      simp only [skipSection, ho, Bool.false_eq_true, if_false, if_neg hne]
      exact ih (fun x hx => hA x (by simp [hx]))

/-- C5 witness: the stray-closer step applied at a concrete state. -/
theorem C5_witness :
    excludeGo ["Bad"] ["keep1", "</Section>"]
        ["<Heading>", "Bad", "</Heading>", "after1", "</Section>", "after2"] =
      excludeGo ["Bad"] ["keep1", "</Section>"]
        (skipSection 1 ["after1", "</Section>", "after2"]) ∧
    skipSection 1 (["after1"] ++ "</Section>" :: ["after2"]) = ["after2"] :=
  ⟨C5_stray_closer.1 ["Bad"] ["keep1", "</Section>"] "<Heading>" "Bad"
      ["after1", "</Section>", "after2"] ["Bad", "</Heading>", "after1", "</Section>", "after2"]
      (by decide) (by decide) (by decide) (by decide),
   C5_stray_closer.2.1 ["after1"] "</Section>" ["after2"]
      (by intro x hx; simp at hx; subst hx; exact ⟨by decide, by decide⟩) (by decide)⟩

theorem hgo_append (s : HState) (a b : List String) :
    hgo s (a ++ b) = hgo s a ++ hgo (hstate s a) b := by
  induction a generalizing s with
  | nil => simp [hgo, hstate]
  | cons l a ih =>
    calc hgo s (l :: a ++ b)
        = (hstep s l).2 ++ hgo (hstep s l).1 (a ++ b) := rfl
      _ = (hstep s l).2 ++ (hgo (hstep s l).1 a ++ hgo (hstate (hstep s l).1 a) b) := by
          rw [ih]
      _ = ((hstep s l).2 ++ hgo (hstep s l).1 a) ++ hgo (hstate (hstep s l).1 a) b := by
          rw [List.append_assoc]
      _ = hgo s (l :: a) ++ hgo (hstate s (l :: a)) b := rfl

theorem headingOpen_facts (t : String) (h : isHeadingOpen t = true) :
    jsStartsWith t "```" = false ∧ mdHeadingLevel t = none ∧ t ≠ "</Heading>" := by
  have h' : t = "<Heading>" ∨ mdxOpenWithAttrs "Heading" t = true := by
    simpa [isHeadingOpen, Bool.or_eq_true] using h
  rcases h' with h1 | h2
  · subst h1
    exact ⟨by decide, by decide, by decide⟩
  · unfold mdxOpenWithAttrs at h2
    simp only [Bool.and_eq_true] at h2
    obtain ⟨⟨hpre, -⟩, -⟩ := h2
    rw [show ("<" ++ "Heading" : String) = "<Heading" from by decide] at hpre
    refine ⟨?_, ?_, ?_⟩
    · -- the first character of t is '<', not '`'
      unfold jsStartsWith at hpre ⊢
      cases ht : t.toList with
      | nil => rw [ht] at hpre; exact absurd hpre (by decide)
      | cons b bs =>
        rw [ht] at hpre
        have hb : b = '<' := by
          have hh := hpre
          simp only [List.isPrefixOf, Bool.and_eq_true] at hh
          have h1 : '<' = b := by simpa [BEq.beq] using hh.1
          exact h1.symm
        subst hb
        simp [List.isPrefixOf]
    · unfold mdHeadingLevel
      cases ht : t.toList with
      | nil => simp
      | cons b bs =>
        unfold jsStartsWith at hpre
        rw [ht] at hpre
        have hb : b = '<' := by
          have hh := hpre
          simp only [List.isPrefixOf, Bool.and_eq_true] at hh
          have h1 : '<' = b := by simpa [BEq.beq] using hh.1
          exact h1.symm
        subst hb
        simp [List.takeWhile, List.dropWhile]
    · intro heq
      rw [heq] at hpre
      exact absurd hpre (by decide)

theorem hstep_heading_open (s : HState) (o : String)
    (hs1 : s.inCode = false) (ho : isHeadingOpen (jsTrim o) = true) :
    hstep s o = ({ s with inHeading := true, content := [] }, []) := by
  obtain ⟨hf, hm, -⟩ := headingOpen_facts _ ho
  simp [hstep, hf, hs1, hm, ho]

theorem hstep_heading_close (s : HState) (c : String)
    (hs1 : s.inCode = false) (hc : jsTrim c = "</Heading>") :
    hstep s c =
      (if jsTrim (String.intercalate " " s.content) ≠ "" then
        ({ s with inHeading := false, level := min (s.level + 1) 6, content := [] },
         [String.mk (List.replicate (min (s.level + 1) 6) '#') ++ " " ++
            jsTrim (String.intercalate " " s.content)])
      else ({ s with inHeading := false, content := [] }, [])) := by
  have hf : jsStartsWith "</Heading>" "```" = false := by decide
  have hm : mdHeadingLevel "</Heading>" = none := by decide
  have ho : isHeadingOpen "</Heading>" = false := by decide
  simp [hstep, hc, hf, hs1, hm, ho]

theorem hstep_heading_interior (s : HState) (l : String)
    (hs1 : s.inCode = false) (hs2 : s.inHeading = true)
    (hf : jsStartsWith (jsTrim l) "```" = false) (hm : mdHeadingLevel (jsTrim l) = none)
    (ho : isHeadingOpen (jsTrim l) = false) (hcl : jsTrim l ≠ "</Heading>") :
    hstep s l = if jsTrim l = "" then (s, ([] : List String))
                else ({ s with content := s.content ++ [jsTrim l] }, []) := by
  simp [hstep, hf, hs1, hm, ho, hcl, hs2]

theorem hgo_heading_interior_run (s : HState) (W : List String)
    (hs1 : s.inCode = false) (hs2 : s.inHeading = true)
    (hW : ∀ l ∈ W, jsStartsWith (jsTrim l) "```" = false ∧ mdHeadingLevel (jsTrim l) = none ∧
          isHeadingOpen (jsTrim l) = false ∧ jsTrim l ≠ "</Heading>") :
    hstate s W = { s with content := s.content ++ ((W.map jsTrim).filter (fun x => x ≠ "")) } ∧
    hgo s W = [] := by
  induction W generalizing s with
  | nil => constructor <;> simp [hstate, hgo]
  | cons l W ih =>
    obtain ⟨hf, hm, ho, hcl⟩ := hW l (by simp)
    have hstepl := hstep_heading_interior s l hs1 hs2 hf hm ho hcl
    by_cases ht : jsTrim l = ""
    · rw [if_pos ht] at hstepl
      have ihs := ih s hs1 hs2 (fun x hx => hW x (by simp [hx]))
      constructor
      · rw [show hstate s (l :: W) = hstate s W from by
            simp [hstate, List.foldl_cons, hstepl]]
        rw [ihs.1]
        simp [ht]
      · rw [show hgo s (l :: W) = hgo s W from by simp [hgo, hstepl]]
        exact ihs.2
    · rw [if_neg ht] at hstepl
      have ihs := ih { s with content := s.content ++ [jsTrim l] } hs1 hs2
        (fun x hx => hW x (by simp [hx]))
      constructor
      · rw [show hstate s (l :: W) = hstate { s with content := s.content ++ [jsTrim l] } W from by
            simp [hstate, List.foldl_cons, hstepl]]
        rw [ihs.1]
        simp [ht, List.append_assoc]
      · rw [show hgo s (l :: W) = hgo { s with content := s.content ++ [jsTrim l] } W from by
            simp [hgo, hstepl]]
        exact ihs.2

/-- Processing one whole `<Heading> … </Heading>` construct from a state
outside fences and headings: the construct is replaced by a single
markdown heading at level `min(currentHeadingLevel + 1, 6)` built from the
collected text (when nonempty), and the tracked level is updated to the
emitted level; an empty construct emits nothing and leaves the state
unchanged. -/
theorem hgo_heading_construct (s : HState) (o c : String) (W rest : List String)
    (hs1 : s.inCode = false) (hs2 : s.inHeading = false) (hs3 : s.content = [])
    (ho : isHeadingOpen (jsTrim o) = true) (hc : jsTrim c = "</Heading>")
    (hW : ∀ l ∈ W, jsStartsWith (jsTrim l) "```" = false ∧ mdHeadingLevel (jsTrim l) = none ∧
          isHeadingOpen (jsTrim l) = false ∧ jsTrim l ≠ "</Heading>") :
    hgo s (o :: (W ++ c :: rest)) =
      (if jsTrim (String.intercalate " " ((W.map jsTrim).filter (fun x => x ≠ ""))) ≠ "" then
        (String.mk (List.replicate (min (s.level + 1) 6) '#') ++ " " ++
          jsTrim (String.intercalate " " ((W.map jsTrim).filter (fun x => x ≠ "")))) ::
          hgo { s with level := min (s.level + 1) 6 } rest
      else hgo s rest) := by
  obtain ⟨sc, sl, sh, scon⟩ := s
  simp only at hs1 hs2 hs3
  subst hs1
  subst hs2
  subst hs3
  have hopen := hstep_heading_open ⟨false, sl, false, []⟩ o rfl ho
  rw [show hgo ⟨false, sl, false, []⟩ (o :: (W ++ c :: rest)) =
        hgo ⟨false, sl, true, []⟩ (W ++ c :: rest) from by simp [hgo, hopen]]
  rw [hgo_append]
  have hint := hgo_heading_interior_run ⟨false, sl, true, []⟩ W rfl rfl hW
  rw [hint.2]
  have hint1 : hstate ⟨false, sl, true, []⟩ W =
      ⟨false, sl, true, (W.map jsTrim).filter (fun x => x ≠ "")⟩ := by
    rw [hint.1]
    rfl
  rw [hint1]
  have hclose := hstep_heading_close ⟨false, sl, true, (W.map jsTrim).filter (fun x => x ≠ "")⟩
    c rfl hc
  rw [show hgo ⟨false, sl, true, (W.map jsTrim).filter (fun x => x ≠ "")⟩ (c :: rest) =
        (hstep ⟨false, sl, true, (W.map jsTrim).filter (fun x => x ≠ "")⟩ c).2 ++
          hgo (hstep ⟨false, sl, true, (W.map jsTrim).filter (fun x => x ≠ "")⟩ c).1 rest
      from rfl]
  rw [hclose]
  by_cases htext : jsTrim (String.intercalate " " ((W.map jsTrim).filter (fun x => x ≠ ""))) = ""
  · rw [if_neg (by simpa using htext), if_neg (by simpa using htext)]
    rfl
  · rw [if_pos (by simpa using htext), if_pos (by simpa using htext)]
    rfl

/-- C2: a `<Heading>` construct (nonempty collected text) becomes a literal
markdown heading at level `min(currentHeadingLevel + 1, 6)`, and the
tracked level is updated to the emitted level (the level starts at 1 and
is also updated by literal `#`-headings, per `hstep`); hence under a
level-2 context two adjacent heading tags become `###` then `####`, and
under a level-6 context a heading tag becomes `######`, never `#######`. -/
theorem C2_heading_tag_conversion :
    (∀ (s : HState) (o c : String) (W rest : List String),
        s.inCode = false → s.inHeading = false → s.content = [] →
        isHeadingOpen (jsTrim o) = true → jsTrim c = "</Heading>" →
        (∀ l ∈ W, jsStartsWith (jsTrim l) "```" = false ∧ mdHeadingLevel (jsTrim l) = none ∧
            isHeadingOpen (jsTrim l) = false ∧ jsTrim l ≠ "</Heading>") →
        jsTrim (String.intercalate " " ((W.map jsTrim).filter (fun x => x ≠ ""))) ≠ "" →
        hgo s (o :: (W ++ c :: rest)) =
          (String.mk (List.replicate (min (s.level + 1) 6) '#') ++ " " ++
            jsTrim (String.intercalate " " ((W.map jsTrim).filter (fun x => x ≠ "")))) ::
            hgo { s with level := min (s.level + 1) 6 } rest) ∧
    processHeadingTags "## T\n<Heading>\nA\n</Heading>\n<Heading>\nB\n</Heading>" =
      "## T\n### A\n#### B" ∧
    processHeadingTags "###### T\n<Heading>\nA\n</Heading>" = "###### T\n###### A" := by
  refine ⟨?_, ?_, ?_⟩
  · intro s o c W rest hs1 hs2 hs3 ho hc hW htext
    rw [hgo_heading_construct s o c W rest hs1 hs2 hs3 ho hc hW, if_pos htext]
  · decide
  · decide

/-- C2 witness: one heading construct under a level-2 context. -/
theorem C2_witness :
    hgo ⟨false, 2, false, []⟩ ("<Heading>" :: (["A"] ++ "</Heading>" :: [])) =
      (String.mk (List.replicate (min (2 + 1) 6) '#') ++ " " ++
        jsTrim (String.intercalate " "
          (((["A"] : List String).map jsTrim).filter (fun x => x ≠ "")))) ::
        hgo ⟨false, min (2 + 1) 6, false, []⟩ [] :=
  C2_heading_tag_conversion.1 ⟨false, 2, false, []⟩ "<Heading>" "</Heading>" ["A"] []
    rfl rfl rfl (by decide) (by decide)
    (by
      intro l hl
      simp at hl
      subst hl
      exact ⟨by decide, by decide, by decide, by decide⟩)
    (by decide)

/-- C10: a Heading tag pair with empty or whitespace-only inner text is
removed without emitting a heading and without changing the machine state
(in particular the tracked heading level), so the rest of the document is
processed as if the construct were absent. -/
theorem C10_empty_heading_removed :
    ∀ (s : HState) (o c : String) (W rest : List String),
      s.inCode = false → s.inHeading = false → s.content = [] →
      isHeadingOpen (jsTrim o) = true → jsTrim c = "</Heading>" →
      (∀ l ∈ W, jsTrim l = "") →
      hgo s (o :: (W ++ c :: rest)) = hgo s rest := by
  intro s o c W rest hs1 hs2 hs3 ho hc hW
  have hW' : ∀ l ∈ W, jsStartsWith (jsTrim l) "```" = false ∧ mdHeadingLevel (jsTrim l) = none ∧
      isHeadingOpen (jsTrim l) = false ∧ jsTrim l ≠ "</Heading>" := by
    intro l hl
    have hlw := hW l hl
    exact ⟨by rw [hlw]; decide, by rw [hlw]; decide, by rw [hlw]; decide, by rw [hlw]; decide⟩
  have hfil : (W.map jsTrim).filter (fun x => x ≠ "") = [] := by
    rw [List.filter_eq_nil]
    intro a ha
    obtain ⟨l, hl, rfl⟩ := List.mem_map.mp ha
    simp [hW l hl]
  rw [hgo_heading_construct s o c W rest hs1 hs2 hs3 ho hc hW', hfil]
  rw [if_neg (by decide)]

/-- C10 witness: an all-whitespace heading construct before further text. -/
theorem C10_witness :
    hgo ⟨false, 3, false, []⟩ ("<Heading>" :: (["", "   "] ++ "</Heading>" :: ["tail"])) =
      hgo ⟨false, 3, false, []⟩ ["tail"] :=
  C10_empty_heading_removed ⟨false, 3, false, []⟩ "<Heading>" "</Heading>" ["", "   "] ["tail"]
    rfl rfl rfl (by decide) (by decide)
    (by
      intro l hl
      simp at hl
      rcases hl with h | h <;> (subst h; decide))

theorem jsStartsWith_false_of (t p1 p2 : String) (h1 : jsStartsWith t p1 = true)
    (h12 : ¬ p1.toList <+: p2.toList) (h21 : ¬ p2.toList <+: p1.toList) :
    jsStartsWith t p2 = false := by
  by_contra h2
  have h2' : jsStartsWith t p2 = true := by simpa using h2
  have q1 := List.isPrefixOf_iff_prefix.mp h1
  have q2 := List.isPrefixOf_iff_prefix.mp h2'
  rcases List.prefix_or_prefix_of_prefix q1 q2 with h | h
  · exact h12 h
  · exact h21 h

theorem sectionOpenAny_facts (t : String) (h : isSectionOpenAny t = true) :
    jsStartsWith t "```" = false ∧ isProcedureOpen t = false ∧ t ≠ "</Procedure>" ∧
    t ≠ "<Step>" ∧ t ≠ "</Step>" ∧ t ≠ "<Heading>" ∧ t ≠ "</Heading>" := by
  have h' : mdxOpenAny "Section" t = true ∨ t = "<Section>" := by
    simpa [isSectionOpenAny, Bool.or_eq_true] using h
  rcases h' with h2 | h1
  · unfold mdxOpenAny at h2
    simp only [Bool.and_eq_true] at h2
    obtain ⟨⟨hpre, -⟩, -⟩ := h2
    rw [show ("<" ++ "Section" : String) = "<Section" from by decide] at hpre
    have hproc : jsStartsWith t "<Procedure" = false :=
      jsStartsWith_false_of t "<Section" "<Procedure" hpre (by decide) (by decide)
    refine ⟨jsStartsWith_false_of t "<Section" "```" hpre (by decide) (by decide), ?_,
      ?_, ?_, ?_, ?_, ?_⟩
    · unfold isProcedureOpen mdxOpenAny
      rw [show ("<" ++ "Procedure" : String) = "<Procedure" from by decide]
      simp [hproc]
    all_goals intro heq; rw [heq] at hpre; exact absurd hpre (by decide)
  · subst h1
    exact ⟨by decide, by decide, by decide, by decide, by decide, by decide, by decide⟩

/-- `<Procedure ...>` resets the step counter to 0 on entry. -/
theorem pstep_procedure_open (s : PState) (l : String)
    (h1 : s.inCode = false) (hp : isProcedureOpen (jsTrim l) = true) :
    pstep s l = ({ s with inProc := true, stepNumber := 0 }, []) := by
  have hp' := hp
  unfold isProcedureOpen mdxOpenAny at hp'
  simp only [Bool.and_eq_true] at hp'
  obtain ⟨⟨hpre, -⟩, -⟩ := hp'
  rw [show ("<" ++ "Procedure" : String) = "<Procedure" from by decide] at hpre
  have hf : jsStartsWith (jsTrim l) "```" = false :=
    jsStartsWith_false_of _ "<Procedure" "```" hpre (by decide) (by decide)
  simp [pstep, hf, h1, hp]

/-- `</Procedure>` clears the step counter on exit. -/
theorem pstep_procedure_close (s : PState) (l : String)
    (h1 : s.inCode = false) (hc : jsTrim l = "</Procedure>") :
    pstep s l = ({ s with inProc := false, stepNumber := 0 }, []) := by
  have hf : jsStartsWith "</Procedure>" "```" = false := by decide
  have hpo : isProcedureOpen "</Procedure>" = false := by decide
  simp [pstep, hc, hf, h1, hpo]

/-- `<Step>` increments the step counter and starts title collection. -/
theorem pstep_step_open (s : PState) (l : String)
    (h1 : s.inCode = false) (hs : jsTrim l = "<Step>") :
    pstep s l = ({ s with
        inStep := true, stepNumber := s.stepNumber + 1, titleLines := [], collecting := true },
      []) := by
  have hf : jsStartsWith "<Step>" "```" = false := by decide
  have hpo : isProcedureOpen "<Step>" = false := by decide
  simp [pstep, hs, hf, h1, hpo]

/-- A `<Section>` line ends title collection and emits the step label
`**Step N:** <title>` followed by a blank line (`emitStepTitle`). -/
theorem pstep_section_emit (s : PState) (l : String)
    (h1 : s.inCode = false) (h2 : s.inProc = true) (h3 : s.inStep = true)
    (h4 : s.inHeading = false) (h5 : s.collecting = true) (h6 : s.titleLines ≠ [])
    (hsec : isSectionOpenAny (jsTrim l) = true) :
    pstep s l = ({ s with
        lastTitle := joinTitleLines s.titleLines, titleLines := [], collecting := false },
      ["**Step " ++ toString s.stepNumber ++ ":** " ++ joinTitleLines s.titleLines, ""]) := by
  obtain ⟨hf, hpo, hcp, hst, hcs, hho, hch⟩ := sectionOpenAny_facts _ hsec
  simp [pstep, hf, h1, hpo, hcp, hst, hcs, h2, h3, hho, hch, h4, h5, hsec, h6]

/-- C7: each procedure wrapper resets the step counter on entry and clears
it on exit; each `<Step>` increments it and the k-th step emits the label
`**Step k:** <title>`; consequently two separate procedure constructs in
one document each label their first step `**Step 1:**`. -/
theorem C7_step_numbering :
    (∀ (s : PState) (l : String), s.inCode = false → isProcedureOpen (jsTrim l) = true →
        pstep s l = ({ s with inProc := true, stepNumber := 0 }, [])) ∧
    (∀ (s : PState) (l : String), s.inCode = false → jsTrim l = "</Procedure>" →
        pstep s l = ({ s with inProc := false, stepNumber := 0 }, [])) ∧
    (∀ (s : PState) (l : String), s.inCode = false → jsTrim l = "<Step>" →
        pstep s l = ({ s with
            inStep := true, stepNumber := s.stepNumber + 1, titleLines := [],
            collecting := true },
          [])) ∧
    (∀ (s : PState) (l : String), s.inCode = false → s.inProc = true → s.inStep = true →
        s.inHeading = false → s.collecting = true → s.titleLines ≠ [] →
        isSectionOpenAny (jsTrim l) = true →
        pstep s l = ({ s with
            lastTitle := joinTitleLines s.titleLines, titleLines := [], collecting := false },
          ["**Step " ++ toString s.stepNumber ++ ":** " ++ joinTitleLines s.titleLines, ""])) ∧
    (pgo pInit ["<Procedure style=\"normal\">", "  <Step>", "    First procedure step 1.",
        "  </Step>", "</Procedure>", "", "Some content.", "",
        "<Procedure style=\"normal\">", "  <Step>", "    Second procedure step 1.",
        "  </Step>", "</Procedure>"]).countP
      (fun ln => jsStartsWith ln "**Step 1:**") = 2 := by
  refine ⟨pstep_procedure_open, pstep_procedure_close, pstep_step_open, pstep_section_emit, ?_⟩
  decide

/-- C7 witness: the clauses applied at concrete states and lines. -/
theorem C7_witness :
    pstep pInit "<Procedure style=\"normal\">" = ({ pInit with inProc := true, stepNumber := 0 }, []) ∧
    pstep ⟨false, true, true, 2, ["Do the thing"], true, "", false, []⟩ "  <Section>" =
      (⟨false, true, true, 2, [], false, joinTitleLines ["Do the thing"], false, []⟩,
       ["**Step " ++ toString 2 ++ ":** " ++ joinTitleLines ["Do the thing"], ""]) :=
  ⟨C7_step_numbering.1 pInit "<Procedure style=\"normal\">" rfl (by decide),
   C7_step_numbering.2.2.2.1 ⟨false, true, true, 2, ["Do the thing"], true, "", false, []⟩
     "  <Section>" rfl rfl rfl rfl rfl (by decide) (by decide)⟩

theorem parseMarkdownHeading_head (t : String) (lvl : Nat) (ht : String)
    (h : parseMarkdownHeading t = some (lvl, ht)) : ∃ bs, t.toList = '#' :: bs := by
  unfold parseMarkdownHeading at h
  cases hc : t.toList with
  | nil => rw [hc] at h; simp at h
  | cons b bs =>
    rw [hc] at h
    by_cases hb : b = '#'
    · exact ⟨bs, by rw [hb]⟩
    · simp [List.takeWhile_cons, hb] at h

theorem mdHeadingLine_facts (t : String) (lvl : Nat) (ht : String)
    (h : parseMarkdownHeading t = some (lvl, ht)) :
    jsStartsWith t "```" = false ∧ isProcedureOpen t = false ∧ t ≠ "</Procedure>" ∧
    t ≠ "<Step>" ∧ t ≠ "</Step>" ∧ t ≠ "<Heading>" ∧ t ≠ "</Heading>" := by
  obtain ⟨bs, hc⟩ := parseMarkdownHeading_head t lvl ht h
  refine ⟨?_, ?_, ?_, ?_, ?_, ?_, ?_⟩
  · unfold jsStartsWith
    rw [hc]
    simp +decide [List.isPrefixOf]
  · unfold isProcedureOpen mdxOpenAny
    rw [show ("<" ++ "Procedure" : String) = "<Procedure" from by decide]
    have hx : jsStartsWith t "<Procedure" = false := by
      unfold jsStartsWith
      rw [hc]
      simp +decide [List.isPrefixOf]
    simp [hx]
  all_goals
    intro he
    rw [he] at hc
    simp at hc

/-- Inside a step, after title collection, a markdown heading is dropped
exactly when its normalized text equals the normalized last step title
(the comparison lowercases both sides). -/
theorem pstep_heading_dedup (s : PState) (l : String) (lvl : Nat) (ht : String)
    (h1 : s.inCode = false) (h2 : s.inProc = true) (h3 : s.inStep = true)
    (h4 : s.inHeading = false) (h5 : s.collecting = false)
    (hp : parseMarkdownHeading (jsTrim l) = some (lvl, ht)) (hlt : s.lastTitle ≠ "") :
    pstep s l = if normalizeForComparison ht = normalizeForComparison s.lastTitle
                then (s, []) else (s, [dedentClamped 4 l]) := by
  obtain ⟨hf, hpo, hcp, hst, hcs, hho, hch⟩ := mdHeadingLine_facts _ _ _ hp
  simp [pstep, hf, h1, hpo, hcp, hst, hcs, h2, h3, hho, hch, h4, h5, hp, hlt]

/-- C4 counterexample: a heading differing from the step title only in
letter case ("### do thing" vs. title "Do Thing") is dropped by the
anti-duplication rule — the output contains no heading — although the
claim (case-sensitive comparison) would keep it. -/
theorem C4_counterexample :
    processProcedureStepTags
        "<Procedure style=\"normal\">\n  <Step>\n    Do Thing\n\n### do thing\n\n    Content.\n  </Step>\n</Procedure>"
        = "**Step 1:** Do Thing\n\n\nContent." ∧
    ("Do Thing" : String) ≠ "do thing" := by
  constructor
  · decide
  · decide

/-- C4 (amended): the redundant-heading match is made on
`normalizeForComparison`, which lowercases both sides after collapsing
whitespace and trailing punctuation, so the comparison is
case-insensitive: a heading differing from the step title only in letter
case is dropped as well. -/
theorem C4_case_insensitive_dedup :
    (∀ (s : PState) (l : String) (lvl : Nat) (ht : String),
        s.inCode = false → s.inProc = true → s.inStep = true →
        s.inHeading = false → s.collecting = false →
        parseMarkdownHeading (jsTrim l) = some (lvl, ht) → s.lastTitle ≠ "" →
        pstep s l = if normalizeForComparison ht = normalizeForComparison s.lastTitle
                    then (s, []) else (s, [dedentClamped 4 l])) ∧
    normalizeForComparison "Do Thing" = normalizeForComparison "do thing" ∧
    ("Do Thing" : String) ≠ "do thing" := by
  refine ⟨?_, by decide, by decide⟩
  intro s l lvl ht h1 h2 h3 h4 h5 hp hlt
  exact pstep_heading_dedup s l lvl ht h1 h2 h3 h4 h5 hp hlt

/-- C4 witness: a case-differing heading after the step title is dropped. -/
theorem C4_witness :
    pstep ⟨false, true, true, 1, [], false, "Do Thing", false, []⟩ "### do thing" =
      if normalizeForComparison "do thing" =
          normalizeForComparison (PState.lastTitle ⟨false, true, true, 1, [], false, "Do Thing", false, []⟩)
      then (⟨false, true, true, 1, [], false, "Do Thing", false, []⟩, [])
      else (⟨false, true, true, 1, [], false, "Do Thing", false, []⟩,
            [dedentClamped 4 "### do thing"]) :=
  C4_case_insensitive_dedup.1 ⟨false, true, true, 1, [], false, "Do Thing", false, []⟩
    "### do thing" 3 "do thing" rfl rfl rfl rfl rfl (by decide) (by decide)

theorem takeWhile_append_stop {α} (p : α → Bool) (A : List α) (l : α) (rest : List α)
    (hA : ∀ x ∈ A, p x = true) (hl : p l = false) :
    List.takeWhile p (A ++ l :: rest) = A := by
  induction A with
  | nil => simp [List.takeWhile, hl]
  | cons a A ih =>
    have ha := hA a (by simp)
    simp only [List.cons_append, List.takeWhile, ha]
    exact congrArg (List.cons a) (ih (fun x hx => hA x (by simp [hx])))

theorem data_append (a b : String) : (a ++ b).data = a.data ++ b.data := rfl

theorem mk_data (l : List Char) : (String.mk l).data = l := rfl

theorem mk_toList_append (a b : String) : String.mk (a.toList ++ b.toList) = a ++ b := rfl

theorem mk_toList (a : String) : String.mk a.toList = a := rfl

theorem tryMatchAt_none_of_head (c : Char) (cs : List Char) (hc : c ≠ '[') :
    tryMatchAt (c :: cs) = none := by
  simp [tryMatchAt, hc]

theorem findMatches_nil : findMatches [] = [] := by
  rw [findMatches.eq_def]

theorem findMatches_cons_none (c : Char) (cs : List Char)
    (h : tryMatchAt (c :: cs) = none) : findMatches (c :: cs) = findMatches cs := by
  conv_lhs => rw [findMatches.eq_def]
  split
  · rename_i heq
    exact absurd heq (by simp)
  · rename_i c' cs' heq
    injection heq with h1 h2
    subst h1
    subst h2
    split
    · rename_i m rest heq2
      rw [h] at heq2
      exact absurd heq2 (by simp)
    · rfl

theorem findMatches_cons_some (c : Char) (cs : List Char) (m : LinkMatch) (rest : List Char)
    (h : tryMatchAt (c :: cs) = some (m, rest)) :
    findMatches (c :: cs) = m :: findMatches rest := by
  conv_lhs => rw [findMatches.eq_def]
  split
  · rename_i heq
    exact absurd heq (by simp)
  · rename_i c' cs' heq
    injection heq with h1 h2
    subst h1
    subst h2
    split
    · rename_i m' rest' heq2
      rw [h] at heq2
      simp only [Option.some.injEq, Prod.mk.injEq] at heq2
      rw [heq2.1, heq2.2]
    · rename_i heq2
      rw [h] at heq2
      exact absurd heq2 (by simp)

theorem findMatches_append_nobr (pre s : List Char) (h : ∀ c ∈ pre, c ≠ '[') :
    findMatches (pre ++ s) = findMatches s := by
  induction pre with
  | nil => rfl
  | cons c cs ih =>
    have hc := h c (by simp)
    rw [List.cons_append,
        findMatches_cons_none _ _ (tryMatchAt_none_of_head _ _ hc),
        ih (fun x hx => h x (by simp [hx]))]

theorem findMatches_no_bracket (s : List Char) (h : ∀ c ∈ s, c ≠ '[') :
    findMatches s = [] := by
  have := findMatches_append_nobr s [] h
  rw [List.append_nil] at this
  rw [this, findMatches_nil]

theorem replaceFirst_at (pre fs post repl : List Char) (hpre : ∀ c ∈ pre, c ≠ '[') :
    replaceFirstChars (pre ++ ('[' :: fs) ++ post) ('[' :: fs) repl =
      pre ++ repl ++ post := by
  induction pre with
  | nil =>
    simp only [List.nil_append, replaceFirstChars]
    rw [if_pos (List.isPrefixOf_iff_prefix.mpr ⟨post, by simp⟩)]
    have : ('[' :: fs) ++ post = (('[' :: fs) ++ post) := rfl
    rw [show (('[' :: fs) ++ post).drop ('[' :: fs).length = post from List.drop_left _ _]
  | cons c cs ih =>
    have hc := hpre c (by simp)
    simp only [List.cons_append, replaceFirstChars]
    rw [if_neg]
    · exact congrArg (List.cons c) (ih (fun x hx => hpre x (by simp [hx])))
    · intro hp
      simp only [List.isPrefixOf, Bool.and_eq_true, beq_iff_eq] at hp
      exact hc hp.1.symm

theorem splitLinkText_exact (t Q : List Char) (ht : t ≠ [])
    (h : ∀ c ∈ t, c ≠ ']') :
    splitLinkText (t ++ ']' :: '(' :: Q) = some (t, Q) := by
  have htw : (t ++ ']' :: '(' :: Q).takeWhile (fun c => c ≠ ']') = t :=
    takeWhile_append_stop _ _ _ _ (fun x hx => by simp [h x hx]) (by simp)
  have hdw : (t ++ ']' :: '(' :: Q).dropWhile (fun c => c ≠ ']') = ']' :: '(' :: Q :=
    dropWhile_append_all _ _ _ _ (fun x hx => by simp [h x hx]) (by simp)
  simp only [splitLinkText]
  cases t with
  | nil => exact absurd rfl ht
  | cons a t' =>
    rw [htw, hdw]
    rfl

theorem splitUrlTail_exact (r Q : List Char) (hr : r ≠ [])
    (h : ∀ c ∈ r, isUrlTailChar c = true) :
    splitUrlTail (r ++ ')' :: Q) = some (r, Q) := by
  have htw : (r ++ ')' :: Q).takeWhile isUrlTailChar = r :=
    takeWhile_append_stop _ _ _ _ h (by decide)
  have hdw : (r ++ ')' :: Q).dropWhile isUrlTailChar = ')' :: Q :=
    dropWhile_append_all _ _ _ _ h (by decide)
  simp only [splitUrlTail]
  cases r with
  | nil => exact absurd rfl hr
  | cons a r' =>
    rw [htw, hdw]
    rfl

theorem tryMatchAt_shaped (pfxStr text tail : String) (post : List Char) (slash : Bool)
    (hpfx : ∀ X : List Char, matchMongoPrefix (pfxStr.toList ++ X) = some (pfxStr.toList, X))
    (htext : text.toList ≠ []) (htc : ∀ c ∈ text.toList, c ≠ ']')
    (htail : tail.toList ≠ []) (htlc : ∀ c ∈ tail.toList, isUrlTailChar c = true)
    (hnsl : tail.toList.getLast? ≠ some '/') :
    tryMatchAt ('[' :: (text.toList ++ ']' :: '(' ::
        (pfxStr.toList ++ ((tail.toList ++ (if slash then ['/'] else [])) ++ ')' :: post)))) =
      some (⟨'[' :: text.toList ++ ']' :: '(' ::
              pfxStr.toList ++ (tail.toList ++ (if slash then ['/'] else [])) ++ [')'],
             text.toList, pfxStr.toList ++ tail.toList⟩, post) := by
  have hr : ∀ c ∈ tail.toList ++ (if slash then ['/'] else []), isUrlTailChar c = true := by
    intro c hcmem
    rcases List.mem_append.mp hcmem with hm | hm
    · exact htlc c hm
    · cases slash
      · simp at hm
      · simp at hm
        subst hm
        decide
  have hrne : tail.toList ++ (if slash then ['/'] else []) ≠ [] := by
    intro he
    exact htail (List.append_eq_nil.mp he).1
  cases slash
  · simp only [show (if (false : Bool) = true then ['/'] else []) = ([] : List Char) from rfl,
      List.append_nil] at hr hrne ⊢
    have hcond : ¬(2 ≤ tail.toList.length ∧ tail.toList.getLast? = some '/') := by
      intro hand
      exact hnsl hand.2
    simp only [tryMatchAt, splitLinkText_exact _ _ htext htc, hpfx,
      splitUrlTail_exact _ _ hrne hr]
    simp [hcond]
    intro _ h2
    exact absurd h2 hnsl
  · simp only [show (if (true : Bool) = true then ['/'] else []) = ['/'] from rfl] at hr hrne ⊢
    have hc2 : (tail.toList ++ ['/']).getLast? = some '/' := List.getLast?_concat _
    have hc1 : 2 ≤ (tail.toList ++ ['/']).length := by
      have : 0 < tail.toList.length := List.length_pos.mpr htail
      simp only [List.length_append, List.length_cons, List.length_nil]
      omega
    simp only [tryMatchAt, splitLinkText_exact _ _ htext htc, hpfx,
      splitUrlTail_exact _ _ hrne hr]
    simp [hc1, hc2, List.dropLast_concat]
    exact fun h0 => htail (List.length_eq_zero.mp h0)

theorem toList_eq_data (s : String) : s.toList = s.data := rfl

theorem processLine_shaped (probe : String → Bool) (sf : Option String) (n : Nat)
    (pre text tail post pfxStr : String) (slash : Bool)
    (hpfx : ∀ X : List Char, matchMongoPrefix (pfxStr.toList ++ X) = some (pfxStr.toList, X))
    (hpre : ∀ c ∈ pre.toList, c ≠ '[')
    (htext : text.toList ≠ []) (htc : ∀ c ∈ text.toList, c ≠ ']')
    (htail : tail.toList ≠ []) (htlc : ∀ c ∈ tail.toList, isUrlTailChar c = true)
    (hnsl : tail.toList.getLast? ≠ some '/')
    (hpost : findMatches post.toList = []) :
    processLine probe sf n
        (pre ++ "[" ++ text ++ "](" ++ (pfxStr ++ tail ++ (if slash then "/" else "")) ++ ")" ++ post) =
      if probe (toMdUrl (pfxStr ++ tail)) then
        (pre ++ "[" ++ text ++ "](" ++ toMdUrl (pfxStr ++ tail) ++ ")" ++ post, ([] : List String))
      else
        (pre ++ text ++ post,
         ["Warning: Broken link at " ++ diagLocation sf n ++ ": " ++ toMdUrl (pfxStr ++ tail) ++
          " - removing link, keeping text \"" ++ text ++ "\""]) := by
  have hshape : (pre ++ "[" ++ text ++ "](" ++
        (pfxStr ++ tail ++ (if slash then "/" else "")) ++ ")" ++ post).toList
      = pre.toList ++ ('[' :: (text.toList ++ ']' :: '(' ::
          (pfxStr.toList ++ ((tail.toList ++ (if slash then ['/'] else [])) ++
            ')' :: post.toList)))) := by
    cases slash <;>
      simp [toList_eq_data, data_append, List.append_assoc,
        show ("[" : String).data = ['['] from rfl,
        show ("](" : String).data = [']', '('] from rfl,
        show (")" : String).data = [')'] from rfl,
        show ("/" : String).data = ['/'] from rfl,
        show ("" : String).data = [] from rfl]
  have hm := tryMatchAt_shaped pfxStr text tail post.toList slash hpfx htext htc htail htlc hnsl
  have hfm : findMatches (pre ++ "[" ++ text ++ "](" ++
        (pfxStr ++ tail ++ (if slash then "/" else "")) ++ ")" ++ post).toList
      = [⟨'[' :: text.toList ++ ']' :: '(' ::
            pfxStr.toList ++ (tail.toList ++ (if slash then ['/'] else [])) ++ [')'],
          text.toList, pfxStr.toList ++ tail.toList⟩] := by
    rw [hshape, findMatches_append_nobr _ _ hpre, findMatches_cons_some _ _ _ _ hm, hpost]
  have hline2 : (pre ++ "[" ++ text ++ "](" ++
        (pfxStr ++ tail ++ (if slash then "/" else "")) ++ ")" ++ post).toList
      = pre.toList ++ ('[' :: (text.toList ++ (']' :: '(' :: pfxStr.toList) ++
          (tail.toList ++ (if slash then ['/'] else [])) ++ [')'])) ++ post.toList := by
    rw [hshape]
    simp [List.append_assoc]
  have hrw1 : replaceFirstChars
      (pre ++ "[" ++ text ++ "](" ++
        (pfxStr ++ tail ++ (if slash then "/" else "")) ++ ")" ++ post).toList
      ('[' :: text.toList ++ ']' :: '(' ::
        pfxStr.toList ++ (tail.toList ++ (if slash then ['/'] else [])) ++ [')'])
      ("[" ++ text ++ "](" ++ toMdUrl (pfxStr ++ tail) ++ ")").toList
      = pre.toList ++ ("[" ++ text ++ "](" ++ toMdUrl (pfxStr ++ tail) ++ ")").toList ++
          post.toList := by
    rw [hline2]
    exact replaceFirst_at pre.toList _ post.toList _ hpre
  have hrw2 : replaceFirstChars
      (pre ++ "[" ++ text ++ "](" ++
        (pfxStr ++ tail ++ (if slash then "/" else "")) ++ ")" ++ post).toList
      ('[' :: text.toList ++ ']' :: '(' ::
        pfxStr.toList ++ (tail.toList ++ (if slash then ['/'] else [])) ++ [')'])
      text.toList
      = pre.toList ++ text.toList ++ post.toList := by
    rw [hline2]
    exact replaceFirst_at pre.toList _ post.toList _ hpre
  simp only [processLine]
  rw [hfm]
  simp only [List.foldl_cons, List.foldl_nil, mk_toList_append, mk_toList]
  by_cases hp : probe (toMdUrl (pfxStr ++ tail)) = true
  · rw [if_pos hp, if_pos hp]
    rw [hrw1]
    simp only [Prod.mk.injEq]
    refine ⟨?_, trivial⟩
    apply String.ext
    simp [mk_data, toList_eq_data, data_append, List.append_assoc]
  · rw [if_neg hp, if_neg hp]
    rw [hrw2]
    simp only [Prod.mk.injEq]
    constructor
    · apply String.ext
      simp [mk_data, toList_eq_data, data_append, List.append_assoc]
    · simp

/-- C3: for markdown links whose URL targets mongodb.com under a /docs/ or
/developer/ path, the canonical URL strips one trailing slash and appends
".md" iff the URL does not already end in ".md" (never producing ".md.md");
if the probe of the canonical URL succeeds the link is rewritten to the
canonical URL, and if it fails the link construct is replaced by its plain
text with a diagnostic naming the source file and the 1-based line number;
lines with no matching link are left unchanged and the result is
independent of the probe (no network call). -/
theorem C3_url_validation :
    (∀ u : String, jsEndsWith u ".md" = true → toMdUrl u = u) ∧
    (∀ (probe probe' : String → Bool) (sf : Option String) (n : Nat) (line : String),
        findMatches line.toList = [] →
        processLine probe sf n line = (line, []) ∧
        processLine probe sf n line = processLine probe' sf n line) ∧
    (∀ (probe : String → Bool) (sf : Option String) (n : Nat)
        (pre text tail post sec : String) (slash : Bool),
        sec = "docs" ∨ sec = "developer" →
        (∀ c ∈ pre.toList, c ≠ '[') →
        text.toList ≠ [] → (∀ c ∈ text.toList, c ≠ ']') →
        tail.toList ≠ [] → (∀ c ∈ tail.toList, isUrlTailChar c = true) →
        tail.toList.getLast? ≠ some '/' →
        findMatches post.toList = [] →
        processLine probe sf n
            (pre ++ "[" ++ text ++ "](" ++
              ("https://www.mongodb.com/" ++ sec ++ "/" ++ tail ++
                (if slash then "/" else "")) ++ ")" ++ post) =
          if probe (toMdUrl ("https://www.mongodb.com/" ++ sec ++ "/" ++ tail)) then
            (pre ++ "[" ++ text ++ "](" ++
              toMdUrl ("https://www.mongodb.com/" ++ sec ++ "/" ++ tail) ++ ")" ++ post,
             ([] : List String))
          else
            (pre ++ text ++ post,
             ["Warning: Broken link at " ++ diagLocation sf n ++ ": " ++
               toMdUrl ("https://www.mongodb.com/" ++ sec ++ "/" ++ tail) ++
               " - removing link, keeping text \"" ++ text ++ "\""])) := by
  refine ⟨?_, ?_, ?_⟩
  · intro u h
    have h1 : List.isPrefixOf ['d', 'm', '.'] u.toList.reverse = true := h
    have hslash : jsEndsWith u "/" = false := by
      by_contra hc
      have hc1 : jsEndsWith u "/" = true := by simpa using hc
      have hc' : List.isPrefixOf ['/'] u.toList.reverse = true := hc1
      obtain ⟨t, ht⟩ := List.isPrefixOf_iff_prefix.mp h1
      obtain ⟨t2, ht2⟩ := List.isPrefixOf_iff_prefix.mp hc'
      rw [← ht] at ht2
      simp at ht2
    simp [toMdUrl, stripTrailingSlash, hslash, h]
  · intro probe probe' sf n line hnone
    have h1 : processLine probe sf n line = (line, []) := by
      simp only [processLine]
      rw [hnone]
      rfl
    have h2 : processLine probe' sf n line = (line, []) := by
      simp only [processLine]
      rw [hnone]
      rfl
    exact ⟨h1, h1.trans h2.symm⟩
  · intro probe sf n pre text tail post sec slash hsec hpre htext htc htail htlc hnsl hpost
    rcases hsec with rfl | rfl
    · exact processLine_shaped probe sf n pre text tail post
        "https://www.mongodb.com/docs/" slash (fun X => rfl)
        hpre htext htc htail htlc hnsl hpost
    · exact processLine_shaped probe sf n pre text tail post
        "https://www.mongodb.com/developer/" slash (fun X => rfl)
        hpre htext htc htail htlc hnsl hpost

/-- C3 witness: a URL already ending in ".md" is left as-is by the
canonicalisation; a line with no matching link is unchanged; a concrete
/docs/ link with a trailing slash is rewritten to the ".md" form when the
probe succeeds. -/
theorem C3_witness :
    toMdUrl "https://www.mongodb.com/docs/atlas.md" = "https://www.mongodb.com/docs/atlas.md" ∧
    processLine (fun _ => false) none 0 "no links here" = ("no links here", []) ∧
    processLine (fun _ => true) (some "guide.md") 4
        ("See " ++ "[" ++ "Guide" ++ "](" ++
          ("https://www.mongodb.com/" ++ "docs" ++ "/" ++ "manual/install" ++
            (if true then "/" else "")) ++ ")" ++ " now.") =
      (("See " ++ "[" ++ "Guide" ++ "](" ++
         toMdUrl ("https://www.mongodb.com/" ++ "docs" ++ "/" ++ "manual/install") ++ ")" ++
         " now."), []) := by
  refine ⟨C3_url_validation.1 _ (by decide),
    (C3_url_validation.2.1 (fun _ => false) (fun _ => true) none 0 _
      (findMatches_no_bracket _ (by decide))).1, ?_⟩
  have h := C3_url_validation.2.2 (fun _ => true) (some "guide.md") 4
      "See " "Guide" "manual/install" " now." "docs" true (Or.inl rfl)
      (by decide) (by decide) (by decide) (by decide) (by decide) (by decide)
      (findMatches_no_bracket _ (by decide))
  rw [h]
  simp

end SkillBuilder
